import Mathlib

/-!
# Verification of the ClearCoreAI orchestrator / auditor core

Shallow embedding of the pure parts of the ClearCoreAI orchestrator
(`clearcoreai/orchestrator/main.py`, `clearcoreai/orchestrator/tools/llm_utils.py`),
the auditor core (`agents/auditor/app.py`, `agents/auditor/tools/llm_utils.py`)
and the water counter (`agents/summarize_articles/tools/water.py`).

Modelling conventions:
* JSON values are the inductive `Json` below; Python `None` and JSON `null`
  coincide (as they do through `requests.json()` / `json.loads`).
* Python floats are modelled as rationals; the operations the code performs on
  them (comparison, `min`, `max`, addition of small decimal literals) are exact.
* Python dicts are association lists with insertion order and unique keys;
  `dictSet` implements `d[k] = v` (replace in place, else append), `List.lookup`
  implements `d.get(k)`.
* Outbound HTTP (`requests.post(... )/execute`) is modelled by an oracle
  function and an explicit request log; exceptions become `Except`.
* Character classes follow the ASCII reading of the regexes in the source
  (`\d`, `\s`, `[A-Za-z0-9_]`, `[A-Za-z0-9_\-]`).
-/

/-! ## Character classes and basic string machinery -/

/-- ASCII whitespace, the characters matched by `\s` and stripped by `str.strip()`. -/
def isSpaceChar (c : Char) : Bool :=
  c = ' ' || c = '\t' || c = '\n' || c = '\x0d' || c = '\x0b' || c = '\x0c'

/-- Line terminators recognised by Python `str.splitlines`. -/
def isLineBreakChar (c : Char) : Bool :=
  c = '\n' || c = '\x0d' || c = '\x0b' || c = '\x0c' ||
  c = '\x1c' || c = '\x1d' || c = '\x1e' || c = '\x85' || c = '\u2028' || c = '\u2029'

/-- Character class `[A-Za-z0-9_\-]` used by the Planner regex `_parse_llm_plan`. -/
def isPNameChar (c : Char) : Bool :=
  c.isAlpha || c.isDigit || c = '_' || c = '-'

/-- Character class `[A-Za-z0-9_]` used by the Executor regex in `execute_plan_string`. -/
def isENameChar (c : Char) : Bool :=
  c.isAlpha || c.isDigit || c = '_'

/-- Python `str.splitlines` on a character list (worker); `\r\n` counts as a
single break. -/
def splitLinesGo : List Char → List Char → List (List Char)
  | [], acc => if acc.isEmpty then [] else [acc.reverse]
  | c :: t, acc =>
    if c = '\x0d' then
      match t with
      | c2 :: t2 =>
        if c2 = '\n' then acc.reverse :: splitLinesGo t2 []
        else acc.reverse :: splitLinesGo (c2 :: t2) []
      | [] => acc.reverse :: splitLinesGo [] []
    else if isLineBreakChar c then acc.reverse :: splitLinesGo t []
    else splitLinesGo t (c :: acc)

/-- Python `str.splitlines`. -/
def splitLines (s : List Char) : List (List Char) :=
  splitLinesGo s []

/-- Tail of `"\n".join`: the remaining lines, each preceded by one `\n`. -/
def joinNLTail : List (List Char) → List Char
  | [] => []
  | l :: ls => '\n' :: (l ++ joinNLTail ls)

/-- Python `"\n".join(lines)` on character lists. -/
def joinNL : List (List Char) → List Char
  | [] => []
  | l :: ls => l ++ joinNLTail ls

/-- Python `str.strip()` (ASCII whitespace reading). -/
def stripChars (s : List Char) : List Char :=
  ((s.dropWhile isSpaceChar).reverse.dropWhile isSpaceChar).reverse

/-- Python `s.replace("->", "→")`: left-to-right, non-overlapping. -/
def replaceArrow : List Char → List Char
  | [] => []
  | c :: t =>
    if c = '-' then
      match t with
      | c2 :: t2 => if c2 = '>' then '→' :: replaceArrow t2 else c :: replaceArrow (c2 :: t2)
      | [] => [c]
    else c :: replaceArrow t

/-- Python `str.lower()` (ASCII reading, applied characterwise). -/
def strLowerChars (s : String) : String :=
  String.mk (s.data.map Char.toLower)

/-- Substring test (`needle in hay` for Python strings). -/
def containsSub (needle hay : List Char) : Bool :=
  match hay with
  | [] => needle.isEmpty
  | _ :: t => needle.isPrefixOf hay || containsSub needle t

/-! ## JSON values and Python-dict helpers -/

/-- JSON values as decoded by `json.loads` / `requests.Response.json()`.
Python `None` is `Json.null`; numbers are modelled as rationals. -/
inductive Json where
  | null : Json
  | bool (b : Bool) : Json
  | num (q : ℚ) : Json
  | str (s : String) : Json
  | arr (xs : List Json) : Json
  | obj (kvs : List (String × Json)) : Json

/-- Python `d[k] = v` on an insertion-ordered dict: replace the value at an
existing key in place, otherwise append the binding. -/
def dictSet {α : Type} (l : List (String × α)) (k : String) (v : α) : List (String × α) :=
  match l with
  | [] => [(k, v)]
  | (k0, v0) :: t => if k0 = k then (k, v) :: t else (k0, v0) :: dictSet t k v

/-- Python truthiness of a JSON value (`if x:`). -/
def jsonTruthy : Json → Bool
  | Json.null => false
  | Json.bool b => b
  | Json.num q => q != 0
  | Json.str s => s != ""
  | Json.arr xs => !xs.isEmpty
  | Json.obj kvs => !kvs.isEmpty

/-- Python `x == s` where `s` is a `str`: true exactly for an equal string. -/
def jsonEqStr (j : Json) (s : String) : Bool :=
  match j with
  | Json.str t => t = s
  | _ => false

/-- Field access `j.get(k)` for a JSON object; `none` when `j` is not an
object or the key is absent. -/
def jsonGet (j : Json) (k : String) : Option Json :=
  match j with
  | Json.obj kvs => kvs.lookup k
  | _ => none

/-- `j.get(k)` with Python default `None` (JSON object access; non-objects give null,
matching the places where the source has already checked `isinstance(j, dict)`). -/
def jsonGetD (j : Json) (k : String) : Json :=
  (jsonGet j k).getD Json.null

mutual

/-- Structural equality of JSON values (Python `==`).  Python compares dicts
order-insensitively and identifies `1`, `1.0` and `True`; the code only
compares scalar `type` tags and whole strings, where this list-ordered,
constructor-strict version agrees. -/
def Json.beq : Json → Json → Bool
  | .null, .null => true
  | .bool a, .bool b => a == b
  | .num a, .num b => a == b
  | .str a, .str b => a == b
  | .arr xs, .arr ys => Json.beqList xs ys
  | .obj xs, .obj ys => Json.beqObjList xs ys
  | _, _ => false

/-- Equality of JSON arrays, elementwise. -/
def Json.beqList : List Json → List Json → Bool
  | [], [] => true
  | x :: xs, y :: ys => Json.beq x y && Json.beqList xs ys
  | _, _ => false

/-- Equality of JSON objects (ordered reading, see `Json.beq`). -/
def Json.beqObjList : List (String × Json) → List (String × Json) → Bool
  | [], [] => true
  | (k1, v1) :: xs, (k2, v2) :: ys => k1 == k2 && Json.beq v1 v2 && Json.beqObjList xs ys
  | _, _ => false

end

/-! ## Planner: `tools/llm_utils.py` -/

/-- The tail `\s*([A-Za-z0-9_\-]+)\s*$` of the Planner regex after the
arrow, paired with the already-matched first group. -/
def matchPlanTail (g1 : List Char) (r : List Char) : Option (String × String) :=
  if ((r.dropWhile isSpaceChar).takeWhile isPNameChar).isEmpty then none else
  if (((r.dropWhile isSpaceChar)).dropWhile isPNameChar).dropWhile isSpaceChar = [] then
    some (String.mk g1, String.mk ((r.dropWhile isSpaceChar).takeWhile isPNameChar))
  else none

/-- The arrow step `\s*(?:→|->)` of the Planner regex, given the maximal name
run `n1` and the input `r3` that follows it.  The greedy run can swallow the
`-` of an ASCII arrow; the engine then backtracks exactly one character,
which is the only backtracking the pattern can need. -/
def matchPlanArrow (n1 : List Char) (r3 : List Char) : Option (String × String) :=
  match r3.dropWhile isSpaceChar with
  | c0 :: r4 =>
    if c0 = '→' then matchPlanTail n1 r4
    else if c0 = '-' then
      match r4 with
      | c1 :: r5 => if c1 = '>' then matchPlanTail n1 r5 else none
      | [] => none
    else
      match r3 with
      | c1 :: r5 =>
        if c1 = '>' then
          if n1.getLast? = some '-' && !n1.dropLast.isEmpty then matchPlanTail n1.dropLast r5
          else none
        else none
      | [] => none
  | [] => none

/-- The Planner step recogniser `_parse_llm_plan`, regex
`^\s*\d+\.\s*([A-Za-z0-9_\-]+)\s*(?:→|->)\s*([A-Za-z0-9_\-]+)\s*$`
on one (already stripped) line; `$` is end of input (inputs come from
`splitlines` and carry no newline). -/
def matchPlanLine (s : List Char) : Option (String × String) :=
  if ((s.dropWhile isSpaceChar).takeWhile Char.isDigit).isEmpty then none else
  match (s.dropWhile isSpaceChar).dropWhile Char.isDigit with
  | [] => none
  | c0 :: r1 =>
    if c0 = '.' then
      if ((r1.dropWhile isSpaceChar).takeWhile isPNameChar).isEmpty then none else
      matchPlanArrow ((r1.dropWhile isSpaceChar).takeWhile isPNameChar)
        (((r1.dropWhile isSpaceChar)).dropWhile isPNameChar)
    else none

/-- `_parse_llm_plan`: collect `(agent, capability)` from every line the step
regex accepts. -/
def parseLLMPlan (text : String) : List (String × String) :=
  (splitLines text.data).filterMap (fun l => matchPlanLine (stripChars l))

/-- Plan rendering from `generate_plan_with_mistral`:
`"\n".join(f"{i+1}. {a} → {c}")` (worker, carrying the 1-based number). -/
def renderLines (n : ℕ) : List (String × String) → List String
  | [] => []
  | (a, c) :: t => (Nat.repr n ++ ". " ++ a ++ " → " ++ c) :: renderLines (n + 1) t

/-- Serialisation of a validated plan back to canonical text. -/
def renderPlan (steps : List (String × String)) : String :=
  String.intercalate "\n" (renderLines 1 steps)

/-! ### Registry, manifests and the capability catalog -/

/-- One entry of a manifest `capabilities` list: a JSON object (with the three
keys the code reads), a bare string, or anything else (silently ignored).
Capability names are modelled as strings; `name` is `none` when the key is
missing.  `description` / `custom_input_handler` keep their raw JSON. -/
inductive ManifestCap where
  | objCap (name : Option String) (description : Option Json) (handler : Option Json)
  | strCap (s : String)
  | otherCap

/-- The part of an agent manifest the Planner and Executor read. -/
structure Manifest where
  capabilities : Option (List ManifestCap)
  input_spec : Option Json
  output_spec : Option Json

/-- A registry record: `agents_registry[name]` with its `base_url` and stored
manifest (the `capabilities` index of the record is not read by the planning
or execution paths and is omitted). -/
structure AgentRec where
  base_url : String
  manifest : Manifest

/-- `agents_registry`: insertion-ordered dict from agent name to record. -/
abbrev Registry := List (String × AgentRec)

/-- One agent of the catalog `_collect_catalog` builds. -/
structure CatAgent where
  capabilities : List String
  capability_meta : List (String × Json)
  input_spec : Option Json
  output_spec : Option Json

instance : Inhabited CatAgent := ⟨⟨[], [], none, none⟩⟩

/-- `catalog["agents"]` as an insertion-ordered dict. -/
abbrev Catalog := List (String × CatAgent)

/-- The capability scan inside `_collect_catalog`: a flat list of names plus
the `cap_meta` index ( `{"description": …, "custom_input_handler": …}` per
truthy name). -/
def collectCaps : List ManifestCap → List String × List (String × Json)
  | [] => ([], [])
  | c :: t =>
    let (names, meta) := collectCaps t
    match c with
    | ManifestCap.objCap nm desc handler =>
      match nm with
      | some cname =>
        if cname = "" then (names, meta)
        else
          (cname :: names,
            dictSet meta cname (Json.obj
              [("description", desc.getD Json.null),
               ("custom_input_handler", handler.getD Json.null)]))
      | none => (names, meta)
    | ManifestCap.strCap s => (s :: names, meta)
    | ManifestCap.otherCap => (names, meta)

/-- The catalog entry `_collect_catalog` builds for one registry record. -/
def catAgentOf (data : AgentRec) : CatAgent :=
  { capabilities := (collectCaps (data.manifest.capabilities.getD [])).1
    capability_meta := (collectCaps (data.manifest.capabilities.getD [])).2
    input_spec := data.manifest.input_spec
    output_spec := data.manifest.output_spec }

/-- `_collect_catalog`: raises `ValueError` (here `none`) on an empty
registry, else builds the agents dict with capability names, meta and specs. -/
def collectCatalog (reg : Registry) : Option Catalog :=
  if reg.isEmpty then none
  else some (reg.map (fun p => (p.1, catAgentOf p.2)))

/-- Truthiness of `agents[a].get("input_spec")` (missing key is falsy). -/
def optTruthy (o : Option Json) : Bool :=
  match o with
  | some j => jsonTruthy j
  | none => false

/-- `_are_specs_compatible` of the planner: both specs truthy and equal
top-level `type` tags. -/
def specCompatible (outS inS : Option Json) : Bool :=
  optTruthy outS && optTruthy inS &&
    Json.beq (jsonGetD (outS.getD Json.null) "type") (jsonGetD (inS.getD Json.null) "type")

/-- First `capability_meta` entry whose value declares
`custom_input_handler == "use_execution_trace"` (clause 2 of
`_find_audit_capability`). -/
def findHandlerCap : List (String × Json) → Option String
  | [] => none
  | (cname, cmeta) :: t =>
    match cmeta with
    | Json.obj _ =>
      if jsonEqStr (jsonGetD cmeta "custom_input_handler") "use_execution_trace" then some cname
      else findHandlerCap t
    | _ => findHandlerCap t

/-- First capability name containing the substring `audit` case-insensitively
(clause 3 of `_find_audit_capability`). -/
def findAuditName : List String → Option String
  | [] => none
  | cname :: t =>
    if containsSub "audit".data (strLowerChars cname).data then some cname else findAuditName t

/-- `_find_audit_capability`: per agent, in order, check the exact name
`audit_trace`, then a `use_execution_trace` handler, then an `audit`
substring. -/
def findAuditCapability : Catalog → Option (String × String)
  | [] => none
  | (name, meta) :: t =>
    if "audit_trace" ∈ meta.capabilities then some (name, "audit_trace")
    else match findHandlerCap meta.capability_meta with
    | some cname => some (name, cname)
    | none =>
      match findAuditName meta.capabilities with
      | some cname => some (name, cname)
      | none => findAuditCapability t

/-- Step 1 of `_validate_and_repair_plan`:
`agent in agents and cap in agents[agent]["capabilities"]`. -/
def validPair (cat : Catalog) (p : String × String) : Bool :=
  match List.lookup p.1 cat with
  | some meta => p.2 ∈ meta.capabilities
  | none => false

/-- Catalog access `agents[name]` (callers have checked membership). -/
def catGetD (cat : Catalog) (name : String) : CatAgent :=
  (List.lookup name cat).getD default

/-- The soft-repair search: first other agent that advertises the same
capability, was not already used with it, and is spec-compatible. -/
def findAlt (cat : Catalog) (repaired : List (String × String)) (agent cap : String)
    (prevOut : Option Json) : Option (String × Option Json) :=
  match cat with
  | [] => none
  | (altName, meta) :: t =>
    if (altName, cap) ∈ repaired || altName = agent then
      findAlt t repaired agent cap prevOut
    else if cap ∈ meta.capabilities && specCompatible prevOut meta.input_spec then
      some (altName, meta.output_spec)
    else findAlt t repaired agent cap prevOut

/-- The index-ordered walk of step 3 of `_validate_and_repair_plan` (the first
step was already accepted by the caller). -/
def repairGo (cat : Catalog) : List (String × String) → List (String × String) →
    Option Json → List (String × String)
  | [], repaired, _ => repaired
  | (agent, cap) :: rest, repaired, prevOut =>
    if specCompatible prevOut (catGetD cat agent).input_spec then
      repairGo cat rest (repaired ++ [(agent, cap)]) (catGetD cat agent).output_spec
    else
      match findAlt cat repaired agent cap prevOut with
      | some (alt, altOut) => repairGo cat rest (repaired ++ [(alt, cap)]) altOut
      | none => repairGo cat rest repaired prevOut

/-- Step 4: append the detected audit capability when not already present. -/
def appendAudit (cat : Catalog) (l : List (String × String)) : List (String × String) :=
  match findAuditCapability cat with
  | some p => if p ∈ l then l else l ++ [p]
  | none => l

/-- `_validate_and_repair_plan` (the `cleaned` and `haveSpecs` locals of the
source are inlined). -/
def validateAndRepairPlan (steps : List (String × String)) (cat : Catalog) :
    List (String × String) :=
  if (steps.filter (validPair cat)).isEmpty then []
  else if !(cat.any (fun a => optTruthy a.2.input_spec || optTruthy a.2.output_spec)) then
    appendAudit cat (steps.filter (validPair cat))
  else
    match steps.filter (validPair cat) with
    | [] => []
    | p :: rest => appendAudit cat (repairGo cat rest [p] (catGetD cat p.1).output_spec)

/-- The pure tail of `generate_plan_with_mistral`: parse the LLM reply, drop
an explicit noop (first definition), validate and repair against the catalog
of the registry; `none` models the raised exceptions (empty registry / no
executable steps). -/
def plannerLLMSteps (llmReply : String) : List (String × String) :=
  if parseLLMPlan llmReply = [("noop", "noop")] then [] else parseLLMPlan llmReply

/-- The validated steps of `generate_plan_with_mistral` (continued below). -/
def plannerSteps (llmReply : String) (reg : Registry) : Option (List (String × String)) :=
  match collectCatalog reg with
  | none => none
  | some cat =>
    if (validateAndRepairPlan (plannerLLMSteps llmReply) cat).isEmpty then none
    else some (validateAndRepairPlan (plannerLLMSteps llmReply) cat)

/-- The emitted plan text (`plan_text` of `generate_plan_with_mistral`). -/
def plannerPlanText (llmReply : String) (reg : Registry) : Option String :=
  (plannerSteps llmReply reg).map renderPlan

/-! ## Executor: `execute_plan_string` in `orchestrator/main.py` -/

/-- The Executor step recogniser,
`^\d+\.\s*([A-Za-z0-9_]+)\s*→\s*([A-Za-z0-9_]+)$`, applied after the line has
been stripped and ASCII arrows replaced by `→`.  The name class here has no
hyphen and only the Unicode arrow remains, so the match is deterministic;
`$` is end of input (the inputs come from `splitlines` and carry no
newline). -/
def matchExecLine (s : List Char) : Option (String × String) :=
  if (s.takeWhile Char.isDigit).isEmpty then none else
  match s.dropWhile Char.isDigit with
  | [] => none
  | c0 :: r1 =>
    if c0 = '.' then
      if ((r1.dropWhile isSpaceChar).takeWhile isENameChar).isEmpty then none else
      match ((r1.dropWhile isSpaceChar).dropWhile isENameChar).dropWhile isSpaceChar with
      | [] => none
      | c1 :: r3 =>
        if c1 = '→' then
          if ((r3.dropWhile isSpaceChar).takeWhile isENameChar).isEmpty then none else
          if ((r3.dropWhile isSpaceChar)).dropWhile isENameChar = [] then
            some (String.mk ((r1.dropWhile isSpaceChar).takeWhile isENameChar),
                  String.mk ((r3.dropWhile isSpaceChar).takeWhile isENameChar))
          else none
        else none
    else none

/-- One trace entry of `execute_plan_string`; the five constructors mirror the
five dict shapes appended to `results` (which keys are present differs per
shape, which the projections below reproduce). -/
inductive ExecEntry where
  | badFormat (step : String)
  | notRegistered (step : String) (agentName : String)
  | skippedCap (step agent capability : String)
  | okStep (step agent capability : String) (input_used : Json) (output : Json)
  | failedStep (step agent capability : String) (input_used : Json) (error : String)

/-- The `step` field of a trace entry. -/
def ExecEntry.stepVal : ExecEntry → String
  | badFormat s => s
  | notRegistered s _ => s
  | skippedCap s _ _ => s
  | okStep s _ _ _ _ => s
  | failedStep s _ _ _ _ => s

/-- The `error` field of a trace entry (`none` when the key is absent or
`None`). -/
def ExecEntry.errorVal : ExecEntry → Option String
  | badFormat _ => some "Unrecognized format"
  | notRegistered _ a => some ("Agent \x27" ++ a ++ "\x27 not registered")
  | skippedCap _ _ _ => none
  | okStep _ _ _ _ _ => none
  | failedStep _ _ _ _ e => some e

/-- The `output` field of a successful entry. -/
def ExecEntry.outputVal : ExecEntry → Option Json
  | okStep _ _ _ _ out => some out
  | _ => none

/-- An entry appended by the `except` branch (dispatch failure). -/
def ExecEntry.isFailed : ExecEntry → Bool
  | failedStep _ _ _ _ _ => true
  | _ => false

/-- `_capabilities_for`: capability names advertised in the agent manifest
(dict entries contribute their `name` value, strings themselves). -/
def capabilitiesFor (reg : Registry) (name : String) : List String :=
  match List.lookup name reg with
  | some r =>
    (r.manifest.capabilities.getD []).filterMap (fun c =>
      match c with
      | ManifestCap.objCap nm _ _ => nm
      | ManifestCap.strCap s => some s
      | ManifestCap.otherCap => none)
  | none => []

/-- `_clean_input`: objects lose the meta key `waterdrops_used`; every other
context (including null) passes through unchanged. -/
def cleanInput (ctx : Json) : Json :=
  match ctx with
  | Json.obj kvs => Json.obj (kvs.filter (fun kv => kv.1 != "waterdrops_used"))
  | x => x

/-- `next((c for c in manifest_caps if isinstance(c, dict) and
c.get("name") == capability), None)`. -/
def findCapObj (caps : List ManifestCap) (capability : String) : Option ManifestCap :=
  caps.find? (fun c =>
    match c with
    | ManifestCap.objCap nm _ _ => nm = some capability
    | _ => false)

/-- The `custom_input_handler` value of a capability object (Python `None`
when absent or when no dict matched). -/
def capHandlerVal (capObj : Option ManifestCap) : Json :=
  match capObj with
  | some (ManifestCap.objCap _ _ h) => h.getD Json.null
  | _ => Json.null

/-- The trace projection fed to a `use_execution_trace` meta capability:
`{"steps": [{agent, input, output, error} for r in results if "agent" in r]}`
(missing dict keys read as `None` through `r.get`). -/
def traceProjection (results : List ExecEntry) : Json :=
  Json.obj [("steps", Json.arr (results.filterMap (fun r =>
    match r with
    | ExecEntry.skippedCap _ a _ =>
      some (Json.obj [("agent", Json.str a), ("input", Json.null),
                      ("output", Json.null), ("error", Json.null)])
    | ExecEntry.okStep _ a _ inp out =>
      some (Json.obj [("agent", Json.str a), ("input", inp),
                      ("output", out), ("error", Json.null)])
    | ExecEntry.failedStep _ a _ inp e =>
      some (Json.obj [("agent", Json.str a), ("input", inp),
                      ("output", Json.null), ("error", Json.str e)])
    | _ => none)))]

/-- The agent side of `requests.post(f"{base_url}/execute", json=payload)`:
given the url and the payload, either the decoded response JSON or the string
of the raised exception. -/
def Oracle := String → Json → Except String Json

/-- Loop state of `execute_plan_string`: accumulated trace, the log of issued
HTTP requests, the rolling contexts, and whether `break` was hit. -/
structure ExecState where
  results : List ExecEntry
  requests : List (String × Json)
  context : Json
  business : Json
  halted : Bool

/-- Whether a capability of this agent declares the
`use_execution_trace` input handler. -/
def capIsMeta (agent : AgentRec) (capability : String) : Bool :=
  jsonEqStr (capHandlerVal (findCapObj (agent.manifest.capabilities.getD []) capability))
    "use_execution_trace"

/-- The `input` part of the payload a step posts: the cleaned rolling context
or, for meta capabilities, the trace projection. -/
def stepPayloadInput (st : ExecState) (agent : AgentRec) (capability : String) : Json :=
  if capIsMeta agent capability then traceProjection st.results else cleanInput st.context

/-- `payload = {"capability": capability, "input": payload_input}`. -/
def stepPayload (st : ExecState) (agent : AgentRec) (capability : String) : Json :=
  Json.obj [("capability", Json.str capability),
            ("input", stepPayloadInput st agent capability)]

/-- The body of the `for raw in plan.splitlines()` loop of
`execute_plan_string`, for a single raw line (`break` is the `halted` flag). -/
def execStep (reg : Registry) (oracle : Oracle) (st : ExecState) (raw : List Char) :
    ExecState :=
  if st.halted then st
  else if (stripChars raw).isEmpty || (stripChars raw).head? = some '#' then st
  else
    match matchExecLine (replaceArrow (stripChars raw)) with
    | none =>
      { st with results := st.results ++
          [ExecEntry.badFormat (String.mk (replaceArrow (stripChars raw)))] }
    | some (agentName, capability) =>
      match List.lookup agentName reg with
      | none =>
        { st with results := st.results ++
            [ExecEntry.notRegistered (String.mk (replaceArrow (stripChars raw))) agentName] }
      | some agent =>
        if capability ∉ capabilitiesFor reg agentName then
          { st with results := st.results ++
              [ExecEntry.skippedCap (String.mk (replaceArrow (stripChars raw)))
                agentName capability] }
        else
          match oracle (agent.base_url ++ "/execute") (stepPayload st agent capability) with
          | Except.error e =>
            { st with
              results := st.results ++
                [ExecEntry.failedStep (String.mk (replaceArrow (stripChars raw)))
                  agentName capability (stepPayloadInput st agent capability) e]
              requests := st.requests ++
                [(agent.base_url ++ "/execute", stepPayload st agent capability)]
              halted := true }
          | Except.ok out =>
            { results := st.results ++
                [ExecEntry.okStep (String.mk (replaceArrow (stripChars raw)))
                  agentName capability
                  (match stepPayloadInput st agent capability with
                   | Json.null => Json.obj []
                   | x => x) out]
              requests := st.requests ++
                [(agent.base_url ++ "/execute", stepPayload st agent capability)]
              context := out
              business := if capIsMeta agent capability then st.business else out
              halted := false }

/-- Result of `execute_plan_string`: the trace, the request log, and the
`final_output` / `total_waterdrops_used` fields of the returned dict. -/
structure ExecResult where
  trace : List ExecEntry
  requests : List (String × Json)
  final_output : Json
  total_waterdrops_used : Json

/-- `execute_plan_string`. -/
def execPlanString (reg : Registry) (oracle : Oracle) (plan : String) : ExecResult :=
  let st := (splitLines plan.data).foldl (execStep reg oracle)
    { results := [], requests := [], context := Json.null, business := Json.null, halted := false }
  let finalCtx :=
    match st.business with
    | Json.null => st.context
    | b => b
  { trace := st.results
    requests := st.requests
    final_output := finalCtx
    total_waterdrops_used :=
      match finalCtx with
      | Json.obj kvs => (kvs.lookup "waterdrops_used").getD (Json.num 0)
      | _ => Json.num 0 }

/-! ## Auditor core: `agents/auditor/tools/llm_utils.py` -/

/-- Python `str(x)` for a JSON value as used on `status`/`summary`/`comment`/
`agent` fields.  Faithful on `None`, booleans and strings; numbers, lists and
dicts are rendered with a placeholder — their Python renderings always
contain digits, dots or brackets, so like the placeholders they are never one
of the status keywords the code compares against. -/
def pyStr : Json → String
  | Json.null => "None"
  | Json.bool true => "True"
  | Json.bool false => "False"
  | Json.str s => s
  | Json.num _ => "<number>"
  | Json.arr _ => "<list>"
  | Json.obj _ => "<dict>"

/-- Python `s.strip()` on a string. -/
def strPyStrip (s : String) : String :=
  String.mk (stripChars s.data)

/-- Python `s.rstrip()`. -/
def strRstrip (s : String) : String :=
  String.mk (s.data.reverse.dropWhile isSpaceChar).reverse

/-- `float(score)` under the `try/except` of `_parse_and_coerce_audit_json`:
numbers pass through, booleans become 0/1, everything else falls back to 0.5
(Python would also parse numeric strings; no claim reads scores). -/
def coerceScore : Json → ℚ
  | Json.num q => q
  | Json.bool b => if b then 1 else 0
  | _ => 1/2

/-- One audit detail line after coercion. -/
structure AuditDetail where
  agent : String
  status : String
  comment : String
  score : ℚ

/-- An audit report (`status`, `summary`, `details`). -/
structure AuditReport where
  status : String
  summary : String
  details : List AuditDetail

/-- Coercion of one `details` item; `none` models the `AttributeError` Python
raises (and does not catch) when the item is not a dict. -/
def coerceDetail (item : Json) : Option AuditDetail :=
  match item with
  | Json.obj _ =>
    let agent := pyStr ((jsonGet item "agent").getD (Json.str "unknown"))
    let status0 := strLowerChars (pyStr ((jsonGet item "status").getD (Json.str "warning")))
    let status := if status0 = "valid" || status0 = "warning" || status0 = "fail"
      then status0 else "warning"
    let comment := strPyStrip (pyStr ((jsonGet item "comment").getD (Json.str "")))
    let score := coerceScore ((jsonGet item "score").getD (Json.num (1/2)))
    let score := max 0 (min 1 score)
    some { agent := agent, status := status,
           comment := if comment = "" then "No comment." else comment, score := score }
  | _ => none

/-- Coercion of the whole `details` list (first failing item propagates, as
the uncaught Python exception would). -/
def coerceDetails : List Json → Option (List AuditDetail)
  | [] => some []
  | x :: t =>
    match coerceDetail x, coerceDetails t with
    | some d, some ds => some (d :: ds)
    | _, _ => none

/-- The `details` list read from the parsed reply (`[]` when missing or not
a list). -/
def detailsInOf (parsed : Json) : List Json :=
  match (jsonGet parsed "details").getD (Json.arr []) with
  | Json.arr xs => xs
  | _ => []

/-- Degrade an empty detail list to the single `unknown`/`warning` entry. -/
def degradeDetails (details0 : List AuditDetail) : List AuditDetail :=
  if details0.isEmpty then
    [{ agent := "unknown", status := "warning",
       comment := "LLM returned no details.", score := 1/5 }]
  else details0

/-- Normalise a missing or invalid global status by recomputing it from the
detail statuses. -/
def normStatus (status0 : String) (details : List AuditDetail) : String :=
  if status0 = "ok" || status0 = "partial" || status0 = "fail" then status0
  else if details.any (fun d => d.status == "fail") then "fail"
  else if details.any (fun d => d.status == "warning") then "partial"
  else "ok"

/-- Default an empty summary to `"<valid>/<total> agents validated"`. -/
def normSummary (summary0 : String) (details : List AuditDetail) : String :=
  if summary0 = "" then
    Nat.repr (details.filter (fun d => d.status == "valid")).length ++ "/" ++
      Nat.repr details.length ++ " agents validated"
  else summary0

/-- `_parse_and_coerce_audit_json` after the JSON parse: coerce the top-level
fields, each detail, degrade an empty detail list, normalise an invalid
global status from the details, and default the summary. -/
def coerceAudit (parsed : Json) : Option AuditReport :=
  match parsed with
  | Json.obj _ =>
    match coerceDetails (detailsInOf parsed) with
    | none => none
    | some details0 =>
      some { status := normStatus
               (strLowerChars (pyStr ((jsonGet parsed "status").getD (Json.str "partial"))))
               (degradeDetails details0)
             summary := normSummary (pyStr ((jsonGet parsed "summary").getD (Json.str "")))
               (degradeDetails details0)
             details := degradeDetails details0 }
  | _ => none

/-- One execution-trace step as seen by the auditor
(`{"agent", "input", "output", "error"}`). -/
structure TraceStep where
  agent : String
  input : Json
  output : Json
  error : Option String

/-- Python truthiness of an optional error string. -/
def errTruthy : Option String → Bool
  | some s => s != ""
  | none => false

/-- `trace_by_agent` lookup: last step of a non-falsy agent name wins. -/
def traceLookup (steps : List TraceStep) (a : String) : Option TraceStep :=
  (steps.filter (fun s => s.agent != "" && s.agent == a)).getLast?

/-- `trace_by_agent.get(a, {}).get("output")`. -/
def traceOutput (steps : List TraceStep) (a : String) : Json :=
  match traceLookup steps a with
  | some s => s.output
  | none => Json.null

/-- `trace_by_agent.get(a, {}).get("error")`. -/
def traceError (steps : List TraceStep) (a : String) : Option String :=
  (traceLookup steps a).bind (fun s => s.error)

/-- `isinstance(x, (int, float))` plus `float(x)` (bool is an int in Python). -/
def numLike : Json → Option ℚ
  | Json.num q => some q
  | Json.bool b => some (if b then 1 else 0)
  | _ => none

/-- Truncation toward zero, Python `int()` on a float. -/
def ratTrunc (q : ℚ) : ℤ :=
  q.num / (q.den : ℤ)

/-- Python `int(x)` under `try/except` (numeric strings via `toInt?`). -/
def pyIntOpt : Json → Option ℤ
  | Json.num q => some (ratTrunc q)
  | Json.bool b => some (if b then 1 else 0)
  | Json.str s => s.toInt?
  | _ => none

/-- `_ensure_detail`: index of the first detail of that agent, appending the
default `{agent, warning, "", 0.2}` entry when absent. -/
def ensureDetail (ds : List AuditDetail) (name : String) : List AuditDetail × ℕ :=
  match ds.findIdx? (fun d => d.agent == name) with
  | some i => (ds, i)
  | none => (ds ++ [{ agent := name, status := "warning", comment := "", score := 1/5 }], ds.length)

/-- In-place update of the element at an index (mutation of the dict that
`_ensure_detail` returned a reference to). -/
def listModify {α : Type} : List α → ℕ → (α → α) → List α
  | [], _, _ => []
  | x :: t, 0, f => f x :: t
  | x :: t, n + 1, f => x :: listModify t n f

/-- `listModify` for a fallible modification: a `TypeError` raised inside
the rule chain leaves the in-place mutations performed so far in the list. -/
def listModifyE : List AuditDetail → ℕ →
    (AuditDetail → Except AuditDetail AuditDetail) →
    Except (List AuditDetail) (List AuditDetail)
  | [], _, _ => Except.ok []
  | x :: t, 0, f =>
    match f x with
    | Except.ok y => Except.ok (y :: t)
    | Except.error y => Except.error (y :: t)
  | x :: t, n + 1, f =>
    match listModifyE t n f with
    | Except.ok t2 => Except.ok (x :: t2)
    | Except.error t2 => Except.error (x :: t2)

/-- The string carried by a status rule known to be `"fail"` or `"warning"`. -/
def ruleStatus : Json → String
  | Json.str s => s
  | _ => ""

/-- Python hashability of a JSON value: lists and dicts are unhashable, so
`x in ...` set- or dict-membership tests on them raise `TypeError`. -/
def jsonHashable : Json → Bool
  | Json.arr _ => false
  | Json.obj _ => false
  | _ => true

/-- Global `min_score` pass of `_apply_policy`. -/
def applyGlobalMinScore (gpJ : Json) (ds : List AuditDetail) : List AuditDetail :=
  match numLike (jsonGetD gpJ "min_score") with
  | some ms => ds.map (fun d =>
      if d.score < ms ∧ d.status = "valid" then
        { d with status := "warning", comment := strRstrip d.comment ++ " (below global min_score)" }
      else d)
  | none => ds

/-- Global `required_agents` pass of `_apply_policy`. -/
def applyRequiredAgents (gpJ : Json) (ds : List AuditDetail) : List AuditDetail :=
  match jsonGet gpJ "required_agents" with
  | some (Json.arr req) =>
    req.foldl (fun ds a =>
      if ds.any (fun d => jsonEqStr a d.agent) then ds
      else
        let (ds1, i) := ensureDetail ds (pyStr a)
        listModify ds1 i (fun d =>
          { d with
            status := "warning"
            comment := d.comment ++ "Missing from audit details per global policy."
            score := min d.score (3/10) })) ds
  | _ => ds

/-- Worker for the global `status_rules` pass.  `Except.error` models the
`TypeError` Python raises hashing an unhashable `if_error` value in the
membership test `rule in ...` (reached only when the trace error is truthy),
carrying the detail list as mutated in place before the raise. -/
def applyStatusRulesGo (steps : List TraceStep) :
    List (String × Json) → List AuditDetail →
    Except (List AuditDetail) (List AuditDetail)
  | [], ds => Except.ok ds
  | kv :: rest, ds =>
    match kv.2 with
    | Json.obj _ =>
      if errTruthy (traceError steps kv.1) then
        if jsonHashable (jsonGetD kv.2 "if_error") then
          if jsonEqStr (jsonGetD kv.2 "if_error") "fail"
              || jsonEqStr (jsonGetD kv.2 "if_error") "warning" then
            applyStatusRulesGo steps rest
              (listModify (ensureDetail ds kv.1).1 (ensureDetail ds kv.1).2 (fun d =>
                { d with
                  status := ruleStatus (jsonGetD kv.2 "if_error")
                  comment := strRstrip d.comment ++ " (policy: error observed)" }))
          else applyStatusRulesGo steps rest ds
        else Except.error ds
      else applyStatusRulesGo steps rest ds
    | _ => applyStatusRulesGo steps rest ds

/-- Global `status_rules` pass of `_apply_policy`. -/
def applyStatusRules (gpJ : Json) (steps : List TraceStep) (ds : List AuditDetail) :
    Except (List AuditDetail) (List AuditDetail) :=
  match jsonGet gpJ "status_rules" with
  | some (Json.obj rulesList) => applyStatusRulesGo steps rulesList ds
  | _ => Except.ok ds

/-- Per-agent `min_score` rule of `_apply_policy`. -/
def ruleAgentMinScore (pol : Json) (d : AuditDetail) : AuditDetail :=
  match numLike (jsonGetD pol "min_score") with
  | some m =>
    if d.score < m ∧ d.status = "valid" then
      { d with status := "warning", comment := strRstrip d.comment ++ " (below agent min_score)" }
    else d
  | none => d

/-- The left-to-right scan `[k for k in req_keys if k not in out]`;
`Except.error` models the `TypeError` Python raises hashing an unhashable
required key. -/
def missingKeys : List Json → List (String × Json) → Except Unit (List Json)
  | [], _ => Except.ok []
  | k :: rest, okvs =>
    if jsonHashable k then
      match missingKeys rest okvs with
      | Except.ok ms =>
        Except.ok (if okvs.any (fun kv => jsonEqStr k kv.1) then ms else k :: ms)
      | Except.error e => Except.error e
    else Except.error ()

/-- Per-agent `required_output_keys` rule (shallow key check; the Python
comment interpolates the missing-key list, abbreviated here).  The key scan
can raise `TypeError` on an unhashable key; no mutation precedes it within
this rule. -/
def ruleRequiredKeys (pol : Json) (out : Json) (d : AuditDetail) :
    Except AuditDetail AuditDetail :=
  match jsonGet pol "required_output_keys", out with
  | some (Json.arr ks), Json.obj okvs =>
    match missingKeys ks okvs with
    | Except.error _ => Except.error d
    | Except.ok ms =>
      Except.ok (if !ms.isEmpty then
        { d with
          status := if d.status = "fail" then d.status else "warning"
          comment := d.comment ++ " Missing output keys."
          score := min d.score (3/5) }
      else d)
  | _, _ => Except.ok d

/-- One field of the per-agent `min_items` rule. -/
def ruleMinItemsStep (okvs : List (String × Json)) (d : AuditDetail)
    (kv : String × Json) : AuditDetail :=
  match pyIntOpt kv.2 with
  | none => d
  | some n =>
    match okvs.lookup kv.1 with
    | some (Json.arr val) =>
      if (val.length : ℤ) < n then
        { d with
          status := "warning"
          comment := d.comment ++ " Field " ++ kv.1 ++ " has too few items."
          score := min d.score (1/2) }
      else d
    | _ => d

/-- Per-agent `min_items` rule of `_apply_policy`. -/
def ruleMinItems (pol : Json) (out : Json) (d : AuditDetail) : AuditDetail :=
  match jsonGet pol "min_items", out with
  | some (Json.obj items), Json.obj okvs => items.foldl (ruleMinItemsStep okvs) d
  | _, _ => d

/-- Per-agent `if_error` rule of `_apply_policy`.  The membership test
`pol.get("if_error") in ...` hashes the value; `Except.error` models the
`TypeError` it raises on an unhashable value (reached only when the trace
error is truthy, as `and` short-circuits). -/
def ruleAgentIfError (pol : Json) (steps : List TraceStep) (aName : String)
    (d : AuditDetail) : Except AuditDetail AuditDetail :=
  if errTruthy (traceError steps aName) then
    if jsonHashable (jsonGetD pol "if_error") then
      Except.ok (if jsonEqStr (jsonGetD pol "if_error") "fail"
          || jsonEqStr (jsonGetD pol "if_error") "warning" then
        { d with
          status := ruleStatus (jsonGetD pol "if_error")
          comment := strRstrip d.comment ++ " (agent policy: error observed)" }
      else d)
    else Except.error d
  else Except.ok d

/-- The four per-agent rules of `_apply_policy`, applied in order to the
ensured detail of one agent (the Python code mutates the same dict); a
`TypeError` in a rule keeps the mutations of the earlier rules. -/
def perAgentRules (pol : Json) (steps : List TraceStep) (aName : String)
    (d : AuditDetail) : Except AuditDetail AuditDetail :=
  match ruleRequiredKeys pol (traceOutput steps aName) (ruleAgentMinScore pol d) with
  | Except.error d1 => Except.error d1
  | Except.ok d1 =>
    ruleAgentIfError pol steps aName (ruleMinItems pol (traceOutput steps aName) d1)

/-- Per-agent policies pass of `_apply_policy`; a raise aborts the loop,
keeping the list as mutated so far. -/
def applyPerAgent (steps : List TraceStep) :
    List (String × Json) → List AuditDetail →
    Except (List AuditDetail) (List AuditDetail)
  | [], ds => Except.ok ds
  | kv :: rest, ds =>
    match kv.2 with
    | Json.obj _ =>
      match listModifyE (ensureDetail ds kv.1).1 (ensureDetail ds kv.1).2
          (perAgentRules kv.2 steps kv.1) with
      | Except.ok ds2 => applyPerAgent steps rest ds2
      | Except.error ds2 => Except.error ds2
    | _ => applyPerAgent steps rest ds

/-- The four mutation passes of `_apply_policy` over the detail list;
`Except.error` carries the list as mutated before a `TypeError`. -/
def applyPasses (audit : AuditReport) (steps : List TraceStep) (gp : Option Json)
    (pa : Option (List (String × Json))) :
    Except (List AuditDetail) (List AuditDetail) :=
  match applyStatusRules (gp.getD (Json.obj [])) steps
      (applyRequiredAgents (gp.getD (Json.obj []))
        (applyGlobalMinScore (gp.getD (Json.obj [])) audit.details)) with
  | Except.error ds => Except.error ds
  | Except.ok ds =>
    match pa with
    | some l => applyPerAgent steps l ds
    | none => Except.ok ds

/-- The final, unconditional recomputation of the global status from the
detail statuses at the end of `_apply_policy`. -/
def recomputeStatus (ds : List AuditDetail) : String :=
  if ds.any (fun d => d.status == "fail") then "fail"
  else if ds.any (fun d => d.status == "warning") then "partial"
  else "ok"

/-- `_apply_policy`: the four passes, then — only when no pass raised — the
recomputation of the global status from the detail statuses.  `Except.error`
models a raised `TypeError` as the caller observes it after the fail-soft
`except Exception: pass`: the global status is left as coerced and the
detail list keeps the in-place mutations performed before the raise. -/
def applyPolicy (audit : AuditReport) (steps : List TraceStep) (gp : Option Json)
    (pa : Option (List (String × Json))) : Except AuditReport AuditReport :=
  match applyPasses audit steps gp pa with
  | Except.ok ds =>
    Except.ok { status := recomputeStatus ds, summary := audit.summary, details := ds }
  | Except.error ds =>
    Except.error { status := audit.status, summary := audit.summary, details := ds }

/-- `execution_trace.get("policies")` filtered to dict values, as in
`audit_trace_with_mistral`. -/
def policiesByAgent (tracePolicies : Json) : Option (List (String × Json)) :=
  match tracePolicies with
  | Json.obj kvs =>
    some (kvs.filter (fun kv => match kv.2 with | Json.obj _ => true | _ => false))
  | _ => none

/-- `policy if isinstance(policy, dict) else None`: the backward-compatible
global policy taken from the function argument. -/
def globalPolicyOf (policyArg : Json) : Option Json :=
  match policyArg with
  | Json.obj kvs => some (Json.obj kvs)
  | _ => none

/-- The pure tail of `audit_trace_with_mistral` after the LLM reply has been
parsed as JSON: coercion, then policy application under the fail-soft
`try/except Exception: pass` — when `_apply_policy` raises, the coerced
audit is kept, with its global status verbatim and its detail list as
mutated in place before the raise.  `none` models the exceptions Python
does not catch (non-dict reply, non-dict detail). -/
def auditCore (parsedLLM : Json) (steps : List TraceStep) (tracePolicies : Json)
    (policyArg : Json) : Option AuditReport :=
  (coerceAudit parsedLLM).map (fun audit =>
    match applyPolicy audit steps (globalPolicyOf policyArg)
        (policiesByAgent tracePolicies) with
    | Except.ok a => a
    | Except.error a => a)

/-! ## Water counter: `tools/water.py` -/

/-- State of the water module: the in-memory cache
(`_aiwaterdrops_consumed`, `None` before first access) and the persisted file
(`none` when `aiwaterdrops.json` is missing). -/
structure WaterState where
  cache : Option ℚ
  file : Option ℚ

/-- `load_aiwaterdrops`: read the file (0.0 when missing), set the cache,
return the value. -/
def waterLoad (s : WaterState) : WaterState × ℚ :=
  let v := s.file.getD 0
  ({ s with cache := some v }, v)

/-- `get_aiwaterdrops`: lazy-load then return the cache. -/
def waterGet (s : WaterState) : WaterState × ℚ :=
  match s.cache with
  | some v => (s, v)
  | none => waterLoad s

/-- `increment_aiwaterdrops`: lazy-load, add, persist. -/
def waterIncrement (s : WaterState) (amount : ℚ) : WaterState :=
  let (_, v) := waterGet s
  { cache := some (v + amount), file := some (v + amount) }

/-- An operation of the water contract. -/
inductive WaterOp where
  | get : WaterOp
  | inc (delta : ℚ) : WaterOp

/-- Run a sequence of operations, collecting every value observed by `get`. -/
def waterRun (s : WaterState) : List WaterOp → WaterState × List ℚ
  | [] => (s, [])
  | WaterOp.get :: t =>
    let (s1, v) := waterGet s
    let (s2, vs) := waterRun s1 t
    (s2, v :: vs)
  | WaterOp.inc δ :: t => waterRun (waterIncrement s δ) t

/-! ## Agent registration: `register_agent` in `orchestrator/main.py` -/

/-- Python `a or b` on JSON values. -/
def pyOr (a b : Json) : Json :=
  if jsonTruthy a then a else b

/-- The capability normalisation block of `register_agent` (accepts a list of
strings, a list of objects with `name`/`capability`/`id`, or a mapping
name → description). -/
def normalizeCaps (rawCaps : Json) : List Json :=
  match rawCaps with
  | Json.arr caps =>
    caps.filterMap (fun cap =>
      match cap with
      | Json.str s => some (Json.obj [("name", Json.str s), ("description", Json.str "")])
      | Json.obj _ =>
        let name := pyOr (jsonGetD cap "name") (pyOr (jsonGetD cap "capability") (jsonGetD cap "id"))
        let desc := (jsonGet cap "description").getD (Json.str "")
        let custom := jsonGetD cap "custom_input_handler"
        if jsonTruthy name then
          some (Json.obj ([("name", name), ("description", desc)] ++
            (if jsonTruthy custom then [("custom_input_handler", custom)] else [])))
        else none
      | _ => none)
  | Json.obj kvs =>
    kvs.map (fun kv =>
      Json.obj [("name", Json.str kv.1),
                ("description", match kv.2 with
                  | Json.null => Json.str ""
                  | v => Json.str (pyStr v))])
  | _ => []

/-- Python dict update with JSON keys (capability names; `Json.beq` as key
equality). -/
def dictSetJson {α : Type} (l : List (Json × α)) (k : Json) (v : α) : List (Json × α) :=
  match l with
  | [] => [(k, v)]
  | (k0, v0) :: t => if Json.beq k0 k then (k, v) :: t else (k0, v0) :: dictSetJson t k v

/-- The structured `capabilities_dict` built from the normalised list. -/
def capabilitiesDict (normCaps : List Json) : List (Json × Json) :=
  normCaps.foldl (fun d cap =>
    let name := jsonGetD cap "name"
    if jsonTruthy name then
      dictSetJson d name (Json.obj
        [("description", (jsonGet cap "description").getD (Json.str "")),
         ("custom_input_handler", jsonGetD cap "custom_input_handler")])
    else d) []

/-- `j[k] = v` on a JSON object. -/
def jsonSet (j : Json) (k : String) (v : Json) : Json :=
  match j with
  | Json.obj kvs => Json.obj (dictSet kvs k v)
  | _ => j

/-- A stored registry record (`base_url`, normalised manifest, structured
capability index). -/
structure RegAgentEntry where
  base_url : String
  manifest : Json
  capabilities : List (Json × Json)

/-- Orchestrator mutable state touched by registration: the in-memory
registry and the water counter. -/
structure OrchState where
  registry : List (String × RegAgentEntry)
  water : ℚ

/-- Outcome of the `/register_agent` endpoint. -/
inductive RegResponse where
  | ok (message : String)
  | err (status : ℕ) (detail : String)

/-- `register_agent`: fetch the manifest (modelled as an `Except`), normalise
capabilities, validate against the schema template (`validate`, a parameter —
`manifest_template.json` is data, not code), store the record in the
registry, persist (`saveOk` tells whether `_save_agents` succeeds), and only
then increment the water counter. -/
def registerAgent (validate : Json → Bool) (st : OrchState) (name baseUrl : String)
    (fetch : Except String Json) (saveOk : Bool) : OrchState × RegResponse :=
  match fetch with
  | Except.error e =>
    (st, RegResponse.err 400 ("Cannot reach agent at " ++ baseUrl ++ ": " ++ e))
  | Except.ok manifest =>
    match manifest with
    | Json.obj _ =>
      let rawCaps := (jsonGet manifest "capabilities").getD (Json.arr [])
      let normalized := normalizeCaps rawCaps
      let manifest2 := jsonSet manifest "capabilities" (Json.arr normalized)
      if !validate manifest2 then (st, RegResponse.err 400 "Manifest invalid")
      else
        let entry : RegAgentEntry :=
          { base_url := baseUrl, manifest := manifest2,
            capabilities := capabilitiesDict normalized }
        let registry2 := dictSet st.registry name entry
        if !saveOk then
          ({ st with registry := registry2 }, RegResponse.err 500 "Failed to persist registry")
        else
          ({ registry := registry2, water := st.water + 2/10 },
            RegResponse.ok ("Agent " ++ name ++ " registered successfully."))
    | _ => (st, RegResponse.err 500 "unhandled non-object manifest")

/-! ## General helper lemmas -/

theorem lookup_dictSet {α : Type} (l : List (String × α)) (k : String) (v : α) :
    List.lookup k (dictSet l k v) = some v := by
  induction l with
  | nil => simp [dictSet, List.lookup]
  | cons h t ih =>
    obtain ⟨k0, v0⟩ := h
    by_cases hk : k0 = k
    · simp [dictSet, hk, List.lookup]
    · have hbeq : (k == k0) = false := by
        simp only [beq_eq_false_iff_ne, ne_eq]
        exact fun he => hk he.symm
      simp [dictSet, hk, List.lookup, hbeq, ih]

theorem mem_dictSet {α : Type} {l : List (String × α)} {k : String} {v : α}
    {p : String × α} (h : p ∈ dictSet l k v) :
    p = (k, v) ∨ p ∈ l := by
  induction l with
  | nil => simpa [dictSet] using h
  | cons h0 t ih =>
    obtain ⟨k0, v0⟩ := h0
    by_cases hk : k0 = k
    · simp only [dictSet, hk, if_pos rfl] at h
      rcases List.mem_cons.mp h with h1 | h1
      · exact Or.inl h1
      · exact Or.inr (List.mem_cons_of_mem _ h1)
    · simp only [dictSet, if_neg hk] at h
      rcases List.mem_cons.mp h with h1 | h1
      · exact Or.inr (by rw [h1]; exact List.mem_cons_self _ _)
      · rcases ih h1 with h2 | h2
        · exact Or.inl h2
        · exact Or.inr (List.mem_cons_of_mem _ h2)

theorem lookup_of_mem_nodup {α : Type} {l : List (String × α)} {k : String} {v : α}
    (hnd : (l.map Prod.fst).Nodup) (hmem : (k, v) ∈ l) :
    List.lookup k l = some v := by
  induction l with
  | nil => cases hmem
  | cons h0 t ih =>
    obtain ⟨k0, v0⟩ := h0
    simp only [List.map_cons, List.nodup_cons] at hnd
    rcases List.mem_cons.mp hmem with h | h
    · cases h
      simp [List.lookup]
    · have hne : (k == k0) = false := by
        simp only [beq_eq_false_iff_ne, ne_eq]
        intro heq
        exact hnd.1 (heq ▸ (List.mem_map.mpr ⟨(k, v), h, rfl⟩))
      simp [List.lookup, hne, ih hnd.2 h]

theorem listModify_mem {α : Type} {l : List α} {i : ℕ} {f : α → α} {x : α}
    (h : x ∈ listModify l i f) : x ∈ l ∨ ∃ y ∈ l, x = f y := by
  induction l generalizing i with
  | nil => simp [listModify] at h
  | cons a t ih =>
    cases i with
    | zero =>
      rcases List.mem_cons.mp h with h1 | h1
      · exact Or.inr ⟨a, List.mem_cons_self _ _, h1⟩
      · exact Or.inl (List.mem_cons_of_mem _ h1)
    | succ n =>
      rcases List.mem_cons.mp h with h1 | h1
      · exact Or.inl (by rw [h1]; exact List.mem_cons_self _ _)
      · rcases ih h1 with h2 | ⟨y, hy, hxy⟩
        · exact Or.inl (List.mem_cons_of_mem _ h2)
        · exact Or.inr ⟨y, List.mem_cons_of_mem _ hy, hxy⟩

theorem coerceDetails_mem {l : List Json} {ds : List AuditDetail}
    (h : coerceDetails l = some ds) :
    ∀ d ∈ ds, ∃ x ∈ l, coerceDetail x = some d := by
  induction l generalizing ds with
  | nil =>
    simp only [coerceDetails] at h
    cases h
    intro d hd
    cases hd
  | cons x t ih =>
    simp only [coerceDetails] at h
    rcases hx : coerceDetail x with _ | d0 <;> rw [hx] at h
    · cases h
    · rcases ht : coerceDetails t with _ | ds0 <;> rw [ht] at h
      · cases h
      · cases h
        intro d hd
        rcases List.mem_cons.mp hd with h1 | h1
        · exact ⟨x, List.mem_cons_self _ _, h1 ▸ hx⟩
        · rcases ih ht d h1 with ⟨a, ha, hfa⟩
          exact ⟨a, List.mem_cons_of_mem _ ha, hfa⟩

/-! ## C10: registration under persistence failure -/

/-- C10: if persisting the registry snapshot fails during agent registration
(after a valid manifest was fetched and validated), the `/register_agent`
endpoint returns HTTP 500, but the new or replaced agent record remains
present in the in-memory registry, and the water counter is not incremented
for that registration. -/
theorem register_agent_persist_failure (validate : Json → Bool) (st : OrchState)
    (name baseUrl : String) (kvs : List (String × Json))
    (hval : validate (jsonSet (Json.obj kvs) "capabilities"
        (Json.arr (normalizeCaps ((jsonGet (Json.obj kvs) "capabilities").getD (Json.arr [])))))
      = true) :
    (registerAgent validate st name baseUrl (Except.ok (Json.obj kvs)) false).2 =
      RegResponse.err 500 "Failed to persist registry" ∧
    (∃ e : RegAgentEntry,
      List.lookup name
          (registerAgent validate st name baseUrl (Except.ok (Json.obj kvs)) false).1.registry
        = some e ∧ e.base_url = baseUrl) ∧
    (registerAgent validate st name baseUrl (Except.ok (Json.obj kvs)) false).1.water
      = st.water := by
  refine ⟨?_, ?_, ?_⟩
  · simp [registerAgent, hval]
  · simp only [registerAgent, hval, Bool.not_true, Bool.false_eq_true, if_false]
    exact ⟨_, lookup_dictSet _ _ _, rfl⟩
  · simp [registerAgent, hval]

/-- Witness for `register_agent_persist_failure` at a trivial validator and
an empty manifest. -/
theorem register_agent_persist_failure_witness :
    ((fun _ => true) (jsonSet (Json.obj []) "capabilities"
        (Json.arr (normalizeCaps ((jsonGet (Json.obj []) "capabilities").getD (Json.arr [])))))
      = true) ∧
    (registerAgent (fun _ => true) ⟨[], 0⟩ "a" "http://a" (Except.ok (Json.obj [])) false).2 =
      RegResponse.err 500 "Failed to persist registry" ∧
    (∃ e : RegAgentEntry,
      List.lookup "a"
          (registerAgent (fun _ => true) ⟨[], 0⟩ "a" "http://a" (Except.ok (Json.obj [])) false).1.registry
        = some e ∧ e.base_url = "http://a") ∧
    (registerAgent (fun _ => true) ⟨[], 0⟩ "a" "http://a" (Except.ok (Json.obj [])) false).1.water
      = (0 : ℚ) :=
  ⟨rfl, register_agent_persist_failure (fun _ => true) ⟨[], 0⟩ "a" "http://a" [] rfl⟩

/-! ## C9: water counter monotonicity -/

theorem waterRun_ge (ops : List WaterOp) (h : ∀ δ, WaterOp.inc δ ∈ ops → 0 ≤ δ) :
    ∀ (s : WaterState) (c : ℚ), s.cache = some c → ∀ v ∈ (waterRun s ops).2, c ≤ v := by
  induction ops with
  | nil => intro s c _ v hv; simp [waterRun] at hv
  | cons op t ih =>
    have ht : ∀ δ, WaterOp.inc δ ∈ t → 0 ≤ δ :=
      fun δ hδ => h δ (List.mem_cons_of_mem _ hδ)
    intro s c hc v hv
    cases op with
    | get =>
      simp only [waterRun, waterGet, hc] at hv
      rcases List.mem_cons.mp hv with h1 | h1
      · exact h1 ▸ le_refl c
      · exact ih ht s c hc v h1
    | inc δ =>
      have hδ : 0 ≤ δ := h δ (List.mem_cons_self _ _)
      simp only [waterRun] at hv
      have hcache : (waterIncrement s δ).cache = some (c + δ) := by
        simp [waterIncrement, waterGet, hc]
      have := ih ht (waterIncrement s δ) (c + δ) hcache v hv
      linarith

/-- C9: with only non-negative increment deltas, the values observed by
`get()` across any sequence of `get`/`increment` operations within one
process lifetime never decrease. -/
theorem water_get_monotone (s : WaterState) (ops : List WaterOp)
    (h : ∀ δ, WaterOp.inc δ ∈ ops → 0 ≤ δ) :
    List.Chain' (· ≤ ·) (waterRun s ops).2 := by
  induction ops generalizing s with
  | nil => simp [waterRun]
  | cons op t ih =>
    have ht : ∀ δ, WaterOp.inc δ ∈ t → 0 ≤ δ :=
      fun δ hδ => h δ (List.mem_cons_of_mem _ hδ)
    cases op with
    | get =>
      rcases hc : s.cache with _ | c
      · simp only [waterRun, waterGet, hc]
        rw [List.chain'_cons']
        constructor
        · intro b hb
          exact waterRun_ge t ht _ _ (by simp [waterLoad]) b (List.mem_of_mem_head? hb)
        · exact ih _ ht
      · simp only [waterRun, waterGet, hc]
        rw [List.chain'_cons']
        constructor
        · intro b hb
          exact waterRun_ge t ht s c hc b (List.mem_of_mem_head? hb)
        · exact ih s ht
    | inc δ =>
      simp only [waterRun]
      exact ih _ ht

/-- Witness for `water_get_monotone` on `get; increment 1; get` from a fresh
state. -/
theorem water_get_monotone_witness :
    (∀ δ, WaterOp.inc δ ∈ [WaterOp.get, WaterOp.inc 1, WaterOp.get] → 0 ≤ δ) ∧
    List.Chain' (· ≤ ·)
      (waterRun ⟨none, none⟩ [WaterOp.get, WaterOp.inc 1, WaterOp.get]).2 := by
  have h : ∀ δ, WaterOp.inc δ ∈ [WaterOp.get, WaterOp.inc 1, WaterOp.get] → 0 ≤ δ := by
    intro δ hδ
    rcases List.mem_cons.mp hδ with h1 | h1
    · cases h1
    rcases List.mem_cons.mp h1 with h2 | h2
    · cases h2; norm_num
    rcases List.mem_cons.mp h2 with h3 | h3
    · cases h3
    · cases h3
  exact ⟨h, water_get_monotone _ _ h⟩

/-! ## C3 / C4: planner plan invariants -/

theorem mem_appendAudit {cat : Catalog} {p : String × String} (l : List (String × String))
    (h : findAuditCapability cat = some p) : p ∈ appendAudit cat l := by
  unfold appendAudit
  rw [h]
  by_cases hp : p ∈ l
  · simp only [if_pos hp]
    exact hp
  · simp [hp]

theorem appendAudit_sub {cat : Catalog} {l : List (String × String)} {q : String × String}
    (h : q ∈ appendAudit cat l) :
    q ∈ l ∨ findAuditCapability cat = some q := by
  unfold appendAudit at h
  rcases ha : findAuditCapability cat with _ | p <;> rw [ha] at h
  · exact Or.inl h
  · change q ∈ if p ∈ l then l else l ++ [p] at h
    by_cases hp : p ∈ l
    · rw [if_pos hp] at h
      exact Or.inl h
    · rw [if_neg hp] at h
      rcases List.mem_append.mp h with h1 | h1
      · exact Or.inl h1
      · exact Or.inr (by rw [List.mem_singleton.mp h1])

theorem validateAndRepair_nonempty_audit {steps : List (String × String)} {cat : Catalog}
    {p : String × String} (haudit : findAuditCapability cat = some p)
    (hne : validateAndRepairPlan steps cat ≠ []) :
    p ∈ validateAndRepairPlan steps cat := by
  unfold validateAndRepairPlan at hne ⊢
  rcases hc : (steps.filter (validPair cat)).isEmpty with _ | _
  · rw [hc] at hne
    simp only [Bool.false_eq_true, if_false] at hne ⊢
    rcases hs : (cat.any fun a => optTruthy a.2.input_spec || optTruthy a.2.output_spec)
      with _ | _
    · rw [hs] at hne
      simp only [Bool.not_false, if_true] at hne ⊢
      exact mem_appendAudit _ haudit
    · rw [hs] at hne
      simp only [Bool.not_true, Bool.false_eq_true, if_false] at hne ⊢
      rcases hcl : steps.filter (validPair cat) with _ | ⟨q, rest⟩
      · rw [hcl] at hne
        exact absurd rfl hne
      · exact mem_appendAudit _ haudit
  · rw [hc] at hne
    simp at hne

/-- Extraction from `plannerSteps`: the emitted steps are
`validateAndRepairPlan` output on the catalog, and are non-empty. -/
theorem plannerSteps_eq {llm : String} {reg : Registry} {steps : List (String × String)}
    (h : plannerSteps llm reg = some steps) :
    ∃ cat, collectCatalog reg = some cat ∧ steps ≠ [] ∧
      ∃ s0, steps = validateAndRepairPlan s0 cat := by
  unfold plannerSteps at h
  rcases hcat : collectCatalog reg with _ | cat
  · rw [hcat] at h
    simp at h
  · rw [hcat] at h
    refine ⟨cat, rfl, ?_⟩
    change (if (validateAndRepairPlan (plannerLLMSteps llm) cat).isEmpty = true then none
      else some (validateAndRepairPlan (plannerLLMSteps llm) cat)) = some steps at h
    rcases he : (validateAndRepairPlan (plannerLLMSteps llm) cat).isEmpty with _ | _
    · rw [he] at h
      simp only [Bool.false_eq_true, if_false] at h
      cases h
      exact ⟨by simpa using he, plannerLLMSteps llm, rfl⟩
    · rw [he] at h
      simp at h

/-- C3 (amended): whenever the catalog detects an audit capability, every
plan the Planner accepts and emits contains that audit step (the code only
guarantees membership, not that it is the unique, final audit step). -/
theorem planner_plan_contains_audit (llm : String) (reg : Registry) (cat : Catalog)
    (p : String × String) (steps : List (String × String))
    (hcat : collectCatalog reg = some cat)
    (haudit : findAuditCapability cat = some p)
    (hsteps : plannerSteps llm reg = some steps) :
    p ∈ steps := by
  rcases plannerSteps_eq hsteps with ⟨cat2, hcat2, hne, s0, heq⟩
  rw [hcat] at hcat2
  cases hcat2
  subst heq
  exact validateAndRepair_nonempty_audit haudit hne

/-- Registry of the audit counterexample: one agent advertising both
`audit_trace` and `do`, no specs. -/
def manifestAuditDemo : Manifest :=
  { capabilities := some
      [ManifestCap.objCap (some "audit_trace") none none,
       ManifestCap.objCap (some "do") none none]
    input_spec := none
    output_spec := none }

def regAuditDemo : Registry :=
  [("a", { base_url := "http://a", manifest := manifestAuditDemo })]

/-- C3 counterexample: with an audit capability in the catalog, the LLM plan
`1. a → audit_trace`, `2. a → do` is accepted and emitted unchanged — its
last step is `(a, do)`, which is not an audit step (not named `audit_trace`,
no handler, and `do` does not contain `audit`), so the accepted plan does not
end with an audit step. -/
theorem planner_audit_not_last :
    plannerSteps "1. a → audit_trace\n2. a → do" regAuditDemo
        = some [("a", "audit_trace"), ("a", "do")] ∧
    [("a", "audit_trace"), ("a", "do")].getLast? = some ("a", "do") ∧
    containsSub "audit".data (strLowerChars "do").data = false := by
  refine ⟨by decide, by decide, by decide⟩

/-- A pair the catalog validates: registered agent, listed capability. -/
theorem validPair_spec {cat : Catalog} {p : String × String} (h : validPair cat p = true) :
    ∃ meta, List.lookup p.1 cat = some meta ∧ p.2 ∈ meta.capabilities := by
  unfold validPair at h
  rcases hl : List.lookup p.1 cat with _ | meta <;> rw [hl] at h
  · cases h
  · exact ⟨meta, rfl, by simpa using h⟩

theorem findAlt_spec {repaired : List (String × String)} {agent cap : String}
    {prevOut : Option Json} :
    ∀ {l : Catalog} {alt : String} {altOut : Option Json},
      findAlt l repaired agent cap prevOut = some (alt, altOut) →
      ∃ meta, (alt, meta) ∈ l ∧ cap ∈ meta.capabilities := by
  intro l
  induction l with
  | nil => intro alt altOut h; cases h
  | cons e t ih =>
    intro alt altOut h
    obtain ⟨altName, meta⟩ := e
    unfold findAlt at h
    by_cases h1 : (altName, cap) ∈ repaired ∨ altName = agent
    · rw [if_pos (by simpa using h1)] at h
      rcases ih h with ⟨m, hm, hc⟩
      exact ⟨m, List.mem_cons_of_mem _ hm, hc⟩
    · rw [if_neg (by simpa using h1)] at h
      rcases h2 : (decide (cap ∈ meta.capabilities) && specCompatible prevOut meta.input_spec)
        with _ | _ <;> rw [h2] at h
      · rcases ih h with ⟨m, hm, hc⟩
        exact ⟨m, List.mem_cons_of_mem _ hm, hc⟩
      · cases h
        refine ⟨meta, List.mem_cons_self _ _, ?_⟩
        have := (Bool.and_eq_true _ _).mp h2
        simpa using this.1

theorem repairGo_mem {cat : Catalog}
    (P : String × String → Prop) :
    ∀ (rest repaired : List (String × String)) (prevOut : Option Json),
      (∀ q ∈ repaired, P q) →
      (∀ q ∈ rest, P q) →
      (∀ alt altOut, (∃ meta, (alt, meta) ∈ cat ∧ altOut ∈ meta.capabilities) → P (alt, altOut)) →
      ∀ q ∈ repairGo cat rest repaired prevOut, P q := by
  intro rest
  induction rest with
  | nil =>
    intro repaired prevOut hrep _ _ q hq
    exact hrep q hq
  | cons s rest ih =>
    intro repaired prevOut hrep hrest halt q hq
    obtain ⟨agent, cap⟩ := s
    unfold repairGo at hq
    have hrest2 : ∀ q ∈ rest, P q := fun q hq => hrest q (List.mem_cons_of_mem _ hq)
    have hhead : P (agent, cap) := hrest _ (List.mem_cons_self _ _)
    rcases hcomp : specCompatible prevOut (catGetD cat agent).input_spec with _ | _ <;>
      rw [hcomp] at hq
    · rcases hfa : findAlt cat repaired agent cap prevOut with _ | ⟨alt, altOut⟩ <;>
        rw [hfa] at hq
      · exact ih repaired prevOut hrep hrest2 halt q hq
      · refine ih _ _ ?_ hrest2 halt q hq
        intro r hr
        rcases List.mem_append.mp hr with h1 | h1
        · exact hrep r h1
        · rw [List.mem_singleton.mp h1]
          rcases findAlt_spec hfa with ⟨meta, hmem, hcap⟩
          exact halt alt cap ⟨meta, hmem, hcap⟩
    · refine ih _ _ ?_ hrest2 halt q hq
      intro r hr
      rcases List.mem_append.mp hr with h1 | h1
      · exact hrep r h1
      · rw [List.mem_singleton.mp h1]
        exact hhead

theorem findHandlerCap_mem : ∀ {l : List (String × Json)} {c : String},
    findHandlerCap l = some c → ∃ v, (c, v) ∈ l := by
  intro l
  induction l with
  | nil => intro c h; cases h
  | cons e t ih =>
    intro c h
    obtain ⟨cname, cmeta⟩ := e
    unfold findHandlerCap at h
    rcases cmeta with _ | _ | _ | _ | _ | kvs
    case obj =>
      by_cases hj : jsonEqStr (jsonGetD (Json.obj kvs) "custom_input_handler")
          "use_execution_trace" = true
      · rw [if_pos hj] at h
        cases h
        exact ⟨Json.obj kvs, List.mem_cons_self _ _⟩
      · rw [if_neg hj] at h
        rcases ih h with ⟨v, hv⟩
        exact ⟨v, List.mem_cons_of_mem _ hv⟩
    all_goals
      rcases ih h with ⟨v, hv⟩
      exact ⟨v, List.mem_cons_of_mem _ hv⟩

theorem findAuditName_mem : ∀ {l : List String} {c : String},
    findAuditName l = some c → c ∈ l := by
  intro l
  induction l with
  | nil => intro c h; cases h
  | cons x t ih =>
    intro c h
    unfold findAuditName at h
    by_cases hx : containsSub "audit".data (strLowerChars x).data = true
    · rw [if_pos hx] at h
      cases h
      exact List.mem_cons_self _ _
    · rw [if_neg hx] at h
      exact List.mem_cons_of_mem _ (ih h)

theorem collectCaps_meta_sub : ∀ (l : List ManifestCap) {k : String} {v : Json},
    (k, v) ∈ (collectCaps l).2 → k ∈ (collectCaps l).1 := by
  intro l
  induction l with
  | nil => intro k v h; cases h
  | cons c t ih =>
    intro k v h
    rcases c with ⟨nm, desc, handler⟩ | s | _
    · rcases nm with _ | cname
      · exact ih h
      · by_cases he : cname = ""
        · simp only [collectCaps, he, if_pos rfl] at h ⊢
          exact ih h
        · simp only [collectCaps, if_neg he] at h ⊢
          rcases mem_dictSet h with h1 | h1
          · exact List.mem_cons.mpr (Or.inl (congrArg Prod.fst h1))
          · exact List.mem_cons.mpr (Or.inr (ih h1))
    · simp only [collectCaps] at h ⊢
      exact List.mem_cons.mpr (Or.inr (ih h))
    · exact ih h

theorem lookup_mem {α : Type} : ∀ {l : List (String × α)} {k : String} {v : α},
    List.lookup k l = some v → (k, v) ∈ l := by
  intro l
  induction l with
  | nil => intro k v h; cases h
  | cons e t ih =>
    intro k v h
    obtain ⟨k0, v0⟩ := e
    by_cases hk : k = k0
    · subst hk
      simp only [List.lookup, beq_self_eq_true] at h
      cases h
      exact List.mem_cons_self _ _
    · have hbeq : (k == k0) = false := by
        simp only [beq_eq_false_iff_ne, ne_eq]
        exact hk
      simp only [List.lookup, hbeq] at h
      exact List.mem_cons_of_mem _ (ih h)

theorem findAuditCapability_valid :
    ∀ {cat : Catalog} {a c : String},
      (∀ e ∈ cat, ∀ kv ∈ e.2.capability_meta, kv.1 ∈ e.2.capabilities) →
      (cat.map Prod.fst).Nodup →
      findAuditCapability cat = some (a, c) →
      ∃ meta, List.lookup a cat = some meta ∧ c ∈ meta.capabilities := by
  intro cat
  induction cat with
  | nil => intro a c _ _ h; cases h
  | cons e t ih =>
    intro a c hmeta hnd h
    obtain ⟨name, meta⟩ := e
    simp only [List.map_cons, List.nodup_cons] at hnd
    unfold findAuditCapability at h
    by_cases h1 : "audit_trace" ∈ meta.capabilities
    · rw [if_pos h1] at h
      cases h
      exact ⟨meta, by simp [List.lookup], h1⟩
    · rw [if_neg h1] at h
      rcases h2 : findHandlerCap meta.capability_meta with _ | cname <;> rw [h2] at h
      · rcases h3 : findAuditName meta.capabilities with _ | cname <;> rw [h3] at h
        · -- recursive case
          have hm2 : ∀ e ∈ t, ∀ kv ∈ e.2.capability_meta, kv.1 ∈ e.2.capabilities :=
            fun e he => hmeta e (List.mem_cons_of_mem _ he)
          rcases ih hm2 hnd.2 h with ⟨m, hm, hc⟩
          refine ⟨m, ?_, hc⟩
          have hne : (a == name) = false := by
            simp only [beq_eq_false_iff_ne, ne_eq]
            intro heq
            subst heq
            exact hnd.1 (List.mem_map.mpr ⟨(a, m), lookup_mem hm, rfl⟩)
          simp [List.lookup, hne, hm]
        · cases h
          refine ⟨meta, by simp [List.lookup], findAuditName_mem h3⟩
      · cases h
        rcases findHandlerCap_mem h2 with ⟨v, hv⟩
        exact ⟨meta, by simp [List.lookup], hmeta (a, meta) (List.mem_cons_self _ _) (c, v) hv⟩

theorem validateAndRepair_valid {steps : List (String × String)} {cat : Catalog}
    (hmeta : ∀ e ∈ cat, ∀ kv ∈ e.2.capability_meta, kv.1 ∈ e.2.capabilities)
    (hnd : (cat.map Prod.fst).Nodup) :
    ∀ q ∈ validateAndRepairPlan steps cat,
      ∃ meta, List.lookup q.1 cat = some meta ∧ q.2 ∈ meta.capabilities := by
  have haudit : ∀ q : String × String, findAuditCapability cat = some q →
      ∃ meta, List.lookup q.1 cat = some meta ∧ q.2 ∈ meta.capabilities := by
    intro q hq
    exact findAuditCapability_valid hmeta hnd hq
  have hclean : ∀ q ∈ steps.filter (validPair cat),
      ∃ meta, List.lookup q.1 cat = some meta ∧ q.2 ∈ meta.capabilities := by
    intro q hq
    exact validPair_spec (List.of_mem_filter hq)
  intro q hq
  unfold validateAndRepairPlan at hq
  rcases hc : (steps.filter (validPair cat)).isEmpty with _ | _
  · rw [hc] at hq
    simp only [Bool.false_eq_true, if_false] at hq
    rcases hs : (cat.any fun a => optTruthy a.2.input_spec || optTruthy a.2.output_spec)
      with _ | _ <;> rw [hs] at hq
    · simp only [Bool.not_false, if_true] at hq
      rcases appendAudit_sub hq with h1 | h1
      · exact hclean q h1
      · exact haudit q h1
    · simp only [Bool.not_true, Bool.false_eq_true, if_false] at hq
      rcases hcl : steps.filter (validPair cat) with _ | ⟨p, rest⟩ <;> rw [hcl] at hq
      · cases hq
      · rcases appendAudit_sub hq with h1 | h1
        · refine repairGo_mem
            (fun q => ∃ meta, List.lookup q.1 cat = some meta ∧ q.2 ∈ meta.capabilities)
            rest [p] (catGetD cat p.1).output_spec ?_ ?_ ?_ q h1
          · intro r hr
            rw [List.mem_singleton.mp hr]
            exact hclean p (hcl ▸ List.mem_cons_self _ _)
          · intro r hr
            exact hclean r (hcl ▸ List.mem_cons_of_mem _ hr)
          · intro alt altOut ⟨meta, hmem, hcap⟩
            exact ⟨meta, lookup_of_mem_nodup hnd hmem, hcap⟩
        · exact haudit q h1
  · rw [hc] at hq
    cases hq

theorem lookup_map_catAgent (reg : Registry) (a : String) :
    List.lookup a (reg.map (fun p => (p.1, catAgentOf p.2)))
      = (List.lookup a reg).map catAgentOf := by
  induction reg with
  | nil => simp [List.lookup]
  | cons e t ih =>
    obtain ⟨k, v⟩ := e
    by_cases hk : a = k
    · subst hk
      simp [List.lookup]
    · have hbeq : (a == k) = false := by
        simp only [beq_eq_false_iff_ne, ne_eq]
        exact hk
      simp [List.lookup, hbeq, ih]

theorem collectCatalog_some {reg : Registry} {cat : Catalog}
    (h : collectCatalog reg = some cat) :
    cat = reg.map (fun p => (p.1, catAgentOf p.2)) := by
  unfold collectCatalog at h
  rcases he : reg.isEmpty with _ | _ <;> rw [he] at h
  · cases h
    rfl
  · cases h

theorem collectCaps_names_sub : ∀ (l : List ManifestCap) {x : String},
    x ∈ (collectCaps l).1 →
    x ∈ l.filterMap (fun c =>
      match c with
      | ManifestCap.objCap nm _ _ => nm
      | ManifestCap.strCap s => some s
      | ManifestCap.otherCap => none) := by
  intro l
  induction l with
  | nil => intro x h; cases h
  | cons c t ih =>
    intro x h
    have lift : x ∈ (collectCaps t).1 →
        x ∈ (c :: t).filterMap (fun c =>
          match c with
          | ManifestCap.objCap nm _ _ => nm
          | ManifestCap.strCap s => some s
          | ManifestCap.otherCap => none) := by
      intro hx
      rcases List.mem_filterMap.mp (ih hx) with ⟨a, ha, hfa⟩
      exact List.mem_filterMap.mpr ⟨a, List.mem_cons_of_mem _ ha, hfa⟩
    rcases c with ⟨nm, desc, handler⟩ | s | _
    · rcases nm with _ | cname
      · exact lift h
      · by_cases he : cname = ""
        · simp only [collectCaps, he, if_pos rfl] at h
          exact lift h
        · simp only [collectCaps, if_neg he] at h
          rcases List.mem_cons.mp h with h1 | h1
          · subst h1
            exact List.mem_filterMap.mpr ⟨_, List.mem_cons_self _ _, rfl⟩
          · exact lift h1
    · simp only [collectCaps] at h
      rcases List.mem_cons.mp h with h1 | h1
      · subst h1
        exact List.mem_filterMap.mpr ⟨_, List.mem_cons_self _ _, rfl⟩
      · exact lift h1
    · exact lift h

/-- C4: every `(agent, capability)` pair of a plan the Planner emits names a
registered agent, and a capability that agent's manifest advertises. -/
theorem planner_pairs_registered (llm : String) (reg : Registry)
    (steps : List (String × String)) (a c : String)
    (hnd : (reg.map Prod.fst).Nodup)
    (hsteps : plannerSteps llm reg = some steps)
    (hmem : (a, c) ∈ steps) :
    (List.lookup a reg).isSome ∧ c ∈ capabilitiesFor reg a := by
  obtain ⟨cat, hcat, hne, s0, heq⟩ := plannerSteps_eq hsteps
  subst heq
  have hcat2 := collectCatalog_some hcat
  subst hcat2
  have hkeys : ((reg.map (fun p => (p.1, catAgentOf p.2))).map Prod.fst) = reg.map Prod.fst := by
    rw [List.map_map]
    rfl
  have hndc := hkeys ▸ hnd
  have hmeta : ∀ e ∈ reg.map (fun p => (p.1, catAgentOf p.2)),
      ∀ kv ∈ e.2.capability_meta, kv.1 ∈ e.2.capabilities := by
    intro e he kv hkv
    rcases List.mem_map.mp he with ⟨p, _, hpe⟩
    subst hpe
    exact collectCaps_meta_sub _ hkv
  obtain ⟨meta, hl, hc⟩ := validateAndRepair_valid hmeta hndc (a, c) hmem
  rw [lookup_map_catAgent] at hl
  rcases hlr : List.lookup a reg with _ | r <;> rw [hlr] at hl
  · cases hl
  · refine ⟨by rfl, ?_⟩
    unfold capabilitiesFor
    rw [hlr]
    cases hl
    exact collectCaps_names_sub _ hc

/-- Manifest for the C4 witness registry. -/
def manifestFetchDemo : Manifest :=
  { capabilities := some [ManifestCap.strCap "fetch"]
    input_spec := none
    output_spec := none }

/-- Registry for the C4 witness. -/
def regFetchDemo : Registry :=
  [("alpha", { base_url := "http://alpha", manifest := manifestFetchDemo })]

/-- Witness for `planner_pairs_registered` on a one-agent registry. -/
theorem planner_pairs_registered_witness :
    (regFetchDemo.map Prod.fst).Nodup ∧
    plannerSteps "1. alpha → fetch" regFetchDemo = some [("alpha", "fetch")] ∧
    ("alpha", "fetch") ∈ [(("alpha" : String), ("fetch" : String))] ∧
    ((List.lookup "alpha" regFetchDemo).isSome ∧
      "fetch" ∈ capabilitiesFor regFetchDemo "alpha") :=
  ⟨by simp [regFetchDemo], by decide, by decide,
    planner_pairs_registered "1. alpha → fetch" regFetchDemo [("alpha", "fetch")]
      "alpha" "fetch" (by simp [regFetchDemo]) (by decide) (by decide)⟩

/-- Witness for `planner_plan_contains_audit` on the demo registry. -/
theorem planner_plan_contains_audit_witness :
    collectCatalog regAuditDemo = some ((collectCatalog regAuditDemo).getD []) ∧
    findAuditCapability ((collectCatalog regAuditDemo).getD []) = some ("a", "audit_trace") ∧
    plannerSteps "1. a → audit_trace\n2. a → do" regAuditDemo
      = some [("a", "audit_trace"), ("a", "do")] ∧
    ("a", "audit_trace") ∈ [(("a" : String), ("audit_trace" : String)), ("a", "do")] :=
  ⟨rfl, rfl, by decide,
    planner_plan_contains_audit "1. a → audit_trace\n2. a → do" regAuditDemo
      ((collectCatalog regAuditDemo).getD []) ("a", "audit_trace")
      [("a", "audit_trace"), ("a", "do")] rfl rfl (by decide)⟩

/-! ## C7: audit global status vs detail statuses -/

/-- A detail status is one of the three schema values. -/
def statusWF (d : AuditDetail) : Prop :=
  d.status = "valid" ∨ d.status = "warning" ∨ d.status = "fail"

theorem coerceDetail_statusWF {x : Json} {d : AuditDetail}
    (h : coerceDetail x = some d) : statusWF d := by
  unfold coerceDetail at h
  rcases x with _ | _ | _ | _ | _ | kvs
  case obj =>
    simp only [Option.some.injEq] at h
    by_cases hs : strLowerChars (pyStr ((jsonGet (Json.obj kvs) "status").getD
        (Json.str "warning"))) = "valid" ∨
        strLowerChars (pyStr ((jsonGet (Json.obj kvs) "status").getD (Json.str "warning")))
          = "warning" ∨
        strLowerChars (pyStr ((jsonGet (Json.obj kvs) "status").getD (Json.str "warning")))
          = "fail"
    · subst h
      unfold statusWF
      rcases hs with hs | hs | hs <;> simp [hs]
    · subst h
      unfold statusWF
      have : ¬ (strLowerChars (pyStr ((jsonGet (Json.obj kvs) "status").getD
          (Json.str "warning"))) = "valid" ||
          strLowerChars (pyStr ((jsonGet (Json.obj kvs) "status").getD (Json.str "warning")))
            = "warning" ||
          strLowerChars (pyStr ((jsonGet (Json.obj kvs) "status").getD (Json.str "warning")))
            = "fail") = true := by
        simp only [Bool.or_eq_true, decide_eq_true_eq]
        tauto
      simp only [this, if_false]
      tauto
  all_goals cases h

theorem degradeDetails_statusWF {details0 : List AuditDetail}
    (h : ∀ d ∈ details0, statusWF d) : ∀ d ∈ degradeDetails details0, statusWF d := by
  unfold degradeDetails
  by_cases he : details0.isEmpty
  · rw [if_pos he]
    intro d hd
    rcases List.mem_singleton.mp hd with rfl
    right; left; rfl
  · rw [if_neg he]
    exact h

theorem coerceAudit_statusWF {parsed : Json} {a : AuditReport}
    (h : coerceAudit parsed = some a) : ∀ d ∈ a.details, statusWF d := by
  unfold coerceAudit at h
  rcases parsed with _ | _ | _ | _ | _ | kvs
  case obj =>
    rcases hd : coerceDetails (detailsInOf (Json.obj kvs)) with _ | details0 <;> rw [hd] at h
    · cases h
    · simp only [Option.some.injEq] at h
      subst h
      refine degradeDetails_statusWF ?_
      intro d hmem
      rcases coerceDetails_mem hd d hmem with ⟨x, _, hx⟩
      exact coerceDetail_statusWF hx
  all_goals cases h

theorem ensureDetail_mem {ds : List AuditDetail} {n : String} {x : AuditDetail}
    (h : x ∈ (ensureDetail ds n).1) :
    x ∈ ds ∨ x = { agent := n, status := "warning", comment := "", score := 1/5 } := by
  unfold ensureDetail at h
  rcases hf : ds.findIdx? (fun d => d.agent == n) with _ | i <;> rw [hf] at h
  · simp only at h
    rcases List.mem_append.mp h with h1 | h1
    · exact Or.inl h1
    · exact Or.inr (List.mem_singleton.mp h1)
  · exact Or.inl h

theorem ruleAgentMinScore_statusWF {pol : Json} {d : AuditDetail} (h : statusWF d) :
    statusWF (ruleAgentMinScore pol d) := by
  unfold ruleAgentMinScore
  rcases numLike (jsonGetD pol "min_score") with _ | m
  · exact h
  · by_cases hc : d.score < m ∧ d.status = "valid"
    · simp only [if_pos hc]
      right; left; rfl
    · simp only [if_neg hc]
      exact h

theorem ruleRequiredKeys_statusWF {pol out : Json} {d r : AuditDetail} (h : statusWF d)
    (he : ruleRequiredKeys pol out d = Except.ok r) : statusWF r := by
  unfold ruleRequiredKeys at he
  rcases hro : jsonGet pol "required_output_keys" with _ | j <;> rw [hro] at he
  · exact (Except.ok.inj he) ▸ h
  · rcases j with _ | _ | _ | _ | ks | _
    case arr =>
      rcases out with _ | _ | _ | _ | _ | okvs
      case obj =>
        have he2 : (match missingKeys ks okvs with
            | Except.error _ => (Except.error d : Except AuditDetail AuditDetail)
            | Except.ok ms =>
              Except.ok (if !ms.isEmpty then
                { d with
                  status := if d.status = "fail" then d.status else "warning"
                  comment := d.comment ++ " Missing output keys."
                  score := min d.score (3/5) }
              else d)) = Except.ok r := he
        rcases hm : missingKeys ks okvs with e | ms <;> rw [hm] at he2
        · exact Except.noConfusion he2
        · rw [← Except.ok.inj he2]
          by_cases hms : (!ms.isEmpty) = true
          · simp only [hms, if_true]
            by_cases hf : d.status = "fail"
            · simp only [hf, if_pos rfl]
              right; right; rfl
            · simp only [if_neg hf]
              right; left; rfl
          · simp only [hms, Bool.false_eq_true, if_false]
            exact h
      all_goals exact (Except.ok.inj he) ▸ h
    all_goals exact (Except.ok.inj he) ▸ h

theorem ruleMinItemsStep_statusWF {okvs : List (String × Json)} {d : AuditDetail}
    {kv : String × Json} (h : statusWF d) : statusWF (ruleMinItemsStep okvs d kv) := by
  unfold ruleMinItemsStep
  rcases pyIntOpt kv.2 with _ | n
  · exact h
  · rcases okvs.lookup kv.1 with _ | j
    · exact h
    · rcases j with _ | _ | _ | _ | val | _ <;> try exact h
      by_cases hlt : ((val.length : ℤ) < n)
      · simp only [if_pos hlt]
        right; left; rfl
      · simp only [if_neg hlt]
        exact h

theorem ruleMinItems_statusWF {pol out : Json} {d : AuditDetail} (h : statusWF d) :
    statusWF (ruleMinItems pol out d) := by
  unfold ruleMinItems
  rcases jsonGet pol "min_items" with _ | j
  · exact h
  · rcases j with _ | _ | _ | _ | _ | items <;> try exact h
    rcases out with _ | _ | _ | _ | _ | okvs <;> try exact h
    induction items generalizing d with
    | nil => exact h
    | cons kv t ih =>
      simp only [List.foldl_cons]
      exact ih (ruleMinItemsStep_statusWF h)

theorem ruleStatus_of_eq {j : Json}
    (h : (jsonEqStr j "fail" || jsonEqStr j "warning") = true) :
    ruleStatus j = "fail" ∨ ruleStatus j = "warning" := by
  rcases j with _ | _ | _ | s | _ | _ <;> simp [jsonEqStr] at h
  rcases h with h | h <;> simp [ruleStatus, h]

theorem ruleAgentIfError_statusWF {pol : Json} {steps : List TraceStep} {aName : String}
    {d r : AuditDetail} (h : statusWF d)
    (he : ruleAgentIfError pol steps aName d = Except.ok r) : statusWF r := by
  unfold ruleAgentIfError at he
  by_cases h1 : errTruthy (traceError steps aName) = true
  · rw [if_pos h1] at he
    by_cases h2 : jsonHashable (jsonGetD pol "if_error") = true
    · rw [if_pos h2] at he
      rw [← Except.ok.inj he]
      by_cases h3 : (jsonEqStr (jsonGetD pol "if_error") "fail"
          || jsonEqStr (jsonGetD pol "if_error") "warning") = true
      · simp only [h3, if_true]
        rcases ruleStatus_of_eq h3 with h4 | h4
        · right; right; exact h4
        · right; left; exact h4
      · simp only [h3, Bool.false_eq_true, if_false]
        exact h
    · rw [if_neg h2] at he
      exact Except.noConfusion he
  · rw [if_neg h1] at he
    exact (Except.ok.inj he) ▸ h

theorem perAgentRules_statusWF {pol : Json} {steps : List TraceStep} {aName : String}
    {d r : AuditDetail} (h : statusWF d)
    (he : perAgentRules pol steps aName d = Except.ok r) : statusWF r := by
  unfold perAgentRules at he
  rcases hk : ruleRequiredKeys pol (traceOutput steps aName) (ruleAgentMinScore pol d)
    with d1 | d1 <;> rw [hk] at he
  · exact Except.noConfusion he
  · exact ruleAgentIfError_statusWF
      (ruleMinItems_statusWF (ruleRequiredKeys_statusWF (ruleAgentMinScore_statusWF h) hk)) he

theorem applyGlobalMinScore_statusWF {gpJ : Json} {ds : List AuditDetail}
    (h : ∀ d ∈ ds, statusWF d) : ∀ d ∈ applyGlobalMinScore gpJ ds, statusWF d := by
  unfold applyGlobalMinScore
  rcases numLike (jsonGetD gpJ "min_score") with _ | ms
  · exact h
  · intro d hd
    rcases List.mem_map.mp hd with ⟨x, hx, hxd⟩
    subst hxd
    by_cases hc : x.score < ms ∧ x.status = "valid"
    · simp only [if_pos hc]
      right; left; rfl
    · simp only [if_neg hc]
      exact h x hx

theorem applyRequiredAgents_statusWF {gpJ : Json} {ds : List AuditDetail}
    (h : ∀ d ∈ ds, statusWF d) : ∀ d ∈ applyRequiredAgents gpJ ds, statusWF d := by
  unfold applyRequiredAgents
  rcases jsonGet gpJ "required_agents" with _ | j
  · exact h
  · rcases j with _ | _ | _ | _ | req | _ <;> try exact h
    induction req generalizing ds with
    | nil => exact h
    | cons a t ih =>
      simp only [List.foldl_cons]
      refine ih ?_
      by_cases ha : (ds.any fun d => jsonEqStr a d.agent) = true
      · simp only [ha, if_true]
        exact h
      · simp only [ha, Bool.false_eq_true, if_false]
        intro d hd
        rcases listModify_mem hd with h1 | ⟨y, hy, hyd⟩
        · rcases ensureDetail_mem h1 with h2 | h2
          · exact h d h2
          · rw [h2]
            right; left; rfl
        · rw [hyd]
          right; left; rfl

theorem applyStatusRulesGo_statusWF {steps : List TraceStep} :
    ∀ (rl : List (String × Json)) (ds ds2 : List AuditDetail),
    (∀ d ∈ ds, statusWF d) →
    applyStatusRulesGo steps rl ds = Except.ok ds2 →
    ∀ d ∈ ds2, statusWF d := by
  intro rl
  induction rl with
  | nil =>
    intro ds ds2 h he
    unfold applyStatusRulesGo at he
    exact (Except.ok.inj he) ▸ h
  | cons kv rest ih =>
    intro ds ds2 h he
    unfold applyStatusRulesGo at he
    split at he
    swap
    · exact ih ds ds2 h he
    by_cases h1 : errTruthy (traceError steps kv.1) = true
    swap
    · rw [if_neg h1] at he
      exact ih ds ds2 h he
    rw [if_pos h1] at he
    by_cases h2 : jsonHashable (jsonGetD kv.2 "if_error") = true
    swap
    · rw [if_neg h2] at he
      exact Except.noConfusion he
    rw [if_pos h2] at he
    by_cases h3 : (jsonEqStr (jsonGetD kv.2 "if_error") "fail"
        || jsonEqStr (jsonGetD kv.2 "if_error") "warning") = true
    swap
    · rw [if_neg h3] at he
      exact ih ds ds2 h he
    rw [if_pos h3] at he
    refine ih _ ds2 ?_ he
    intro d hd
    rcases listModify_mem hd with hmem | ⟨y, hy, hyd⟩
    · rcases ensureDetail_mem hmem with h4 | h4
      · exact h d h4
      · rw [h4]
        right; left; rfl
    · rw [hyd]
      rcases ruleStatus_of_eq h3 with h4 | h4
      · right; right; exact h4
      · right; left; exact h4

theorem applyStatusRules_statusWF {gpJ : Json} {steps : List TraceStep}
    {ds ds2 : List AuditDetail}
    (h : ∀ d ∈ ds, statusWF d) (he : applyStatusRules gpJ steps ds = Except.ok ds2) :
    ∀ d ∈ ds2, statusWF d := by
  unfold applyStatusRules at he
  split at he
  · rename_i rulesList hjget
    exact applyStatusRulesGo_statusWF rulesList ds ds2 h he
  · exact (Except.ok.inj he) ▸ h

theorem listModifyE_ok_mem {l : List AuditDetail} {i : ℕ}
    {f : AuditDetail → Except AuditDetail AuditDetail} {l2 : List AuditDetail}
    {x : AuditDetail}
    (he : listModifyE l i f = Except.ok l2) (h : x ∈ l2) :
    x ∈ l ∨ ∃ y ∈ l, f y = Except.ok x := by
  induction l generalizing i l2 with
  | nil =>
    unfold listModifyE at he
    rw [← Except.ok.inj he] at h
    cases h
  | cons a t ih =>
    rcases i with _ | n
    · unfold listModifyE at he
      rcases hf : f a with y | y <;> rw [hf] at he
      · exact Except.noConfusion he
      · rw [← Except.ok.inj he] at h
        rcases List.mem_cons.mp h with h1 | h1
        · subst h1
          exact Or.inr ⟨a, List.mem_cons_self _ _, hf⟩
        · exact Or.inl (List.mem_cons_of_mem _ h1)
    · unfold listModifyE at he
      rcases hr : listModifyE t n f with t2 | t2 <;> rw [hr] at he
      · exact Except.noConfusion he
      · rw [← Except.ok.inj he] at h
        rcases List.mem_cons.mp h with h1 | h1
        · subst h1
          exact Or.inl (List.mem_cons_self _ _)
        · rcases ih hr h1 with h2 | ⟨y, hy, hfy⟩
          · exact Or.inl (List.mem_cons_of_mem _ h2)
          · exact Or.inr ⟨y, List.mem_cons_of_mem _ hy, hfy⟩

theorem applyPerAgent_statusWF {steps : List TraceStep} :
    ∀ (pa : List (String × Json)) (ds ds2 : List AuditDetail),
    (∀ d ∈ ds, statusWF d) →
    applyPerAgent steps pa ds = Except.ok ds2 →
    ∀ d ∈ ds2, statusWF d := by
  intro pa
  induction pa with
  | nil =>
    intro ds ds2 h he
    unfold applyPerAgent at he
    exact (Except.ok.inj he) ▸ h
  | cons kv rest ih =>
    intro ds ds2 h he
    unfold applyPerAgent at he
    split at he
    swap
    · exact ih ds ds2 h he
    rcases hm : listModifyE (ensureDetail ds kv.1).1 (ensureDetail ds kv.1).2
        (perAgentRules kv.2 steps kv.1) with e | dsn <;> rw [hm] at he
    · exact Except.noConfusion he
    · refine ih dsn ds2 ?_ he
      intro d hd
      rcases listModifyE_ok_mem hm hd with h1 | ⟨y, hy, hfy⟩
      · rcases ensureDetail_mem h1 with h2 | h2
        · exact h d h2
        · rw [h2]
          right; left; rfl
      · rcases ensureDetail_mem hy with h2 | h2
        · exact perAgentRules_statusWF (h y h2) hfy
        · refine perAgentRules_statusWF ?_ hfy
          rw [h2]
          right; left; rfl

theorem applyPasses_statusWF (audit : AuditReport) (steps : List TraceStep)
    (gp : Option Json) (pa : Option (List (String × Json))) (ds2 : List AuditDetail)
    (h : ∀ d ∈ audit.details, statusWF d)
    (he : applyPasses audit steps gp pa = Except.ok ds2) :
    ∀ d ∈ ds2, statusWF d := by
  unfold applyPasses at he
  rcases hs : applyStatusRules (gp.getD (Json.obj [])) steps
      (applyRequiredAgents (gp.getD (Json.obj []))
        (applyGlobalMinScore (gp.getD (Json.obj [])) audit.details)) with e | ds1 <;>
    rw [hs] at he
  · exact Except.noConfusion he
  · have h1 : ∀ d ∈ ds1, statusWF d :=
      applyStatusRules_statusWF
        (applyRequiredAgents_statusWF (applyGlobalMinScore_statusWF h)) hs
    rcases pa with _ | l
    · exact (Except.ok.inj he) ▸ h1
    · exact applyPerAgent_statusWF l ds1 ds2 h1 he

/-- C7 (amended): whenever `_apply_policy` completes without raising, the
audit the core returns has global status `fail` iff some detail has status
`fail`, and `ok` iff every detail has status `valid`.  When a policy value
makes `_apply_policy` raise (for instance an unhashable `if_error` value),
the fail-soft `except` keeps the coerced LLM status verbatim and the
equivalence can fail — see the counterexample. -/
theorem audit_status_iff (parsedLLM : Json) (steps : List TraceStep)
    (tracePolicies policyArg : Json) (audit0 rep : AuditReport)
    (hc : coerceAudit parsedLLM = some audit0)
    (hp : applyPolicy audit0 steps (globalPolicyOf policyArg)
        (policiesByAgent tracePolicies) = Except.ok rep) :
    auditCore parsedLLM steps tracePolicies policyArg = some rep ∧
    ((rep.status = "fail") ↔ ∃ d ∈ rep.details, d.status = "fail") ∧
    ((rep.status = "ok") ↔ ∀ d ∈ rep.details, d.status = "valid") := by
  refine ⟨?_, ?_⟩
  · unfold auditCore
    rw [hc]
    simp only [Option.map_some']
    rw [hp]
  · unfold applyPolicy at hp
    rcases hps : applyPasses audit0 steps (globalPolicyOf policyArg)
        (policiesByAgent tracePolicies) with e | ds <;> rw [hps] at hp
    · exact Except.noConfusion hp
    · have hWF : ∀ d ∈ ds, statusWF d :=
        applyPasses_statusWF _ _ _ _ _ (coerceAudit_statusWF hc) hps
      rw [← Except.ok.inj hp]
      show ((recomputeStatus ds = "fail") ↔ ∃ d ∈ ds, d.status = "fail") ∧
        ((recomputeStatus ds = "ok") ↔ ∀ d ∈ ds, d.status = "valid")
      constructor
      · constructor
        · intro hfail
          unfold recomputeStatus at hfail
          by_cases h1 : (ds.any fun d => d.status == "fail") = true
          · rcases List.any_eq_true.mp h1 with ⟨d, hd, hdf⟩
            exact ⟨d, hd, by simpa using hdf⟩
          · rw [if_neg h1] at hfail
            by_cases h2 : (ds.any fun d => d.status == "warning") = true
            · rw [if_pos h2] at hfail
              exact absurd hfail (by decide)
            · rw [if_neg h2] at hfail
              exact absurd hfail (by decide)
        · rintro ⟨d, hd, hdf⟩
          unfold recomputeStatus
          rw [if_pos (List.any_eq_true.mpr ⟨d, hd, by simpa using hdf⟩)]
      · constructor
        · intro hok d hd
          unfold recomputeStatus at hok
          by_cases h1 : (ds.any fun d => d.status == "fail") = true
          · rw [if_pos h1] at hok
            exact absurd hok (by decide)
          · rw [if_neg h1] at hok
            by_cases h2 : (ds.any fun d => d.status == "warning") = true
            · rw [if_pos h2] at hok
              exact absurd hok (by decide)
            · have hnf : d.status ≠ "fail" := fun he =>
                h1 (List.any_eq_true.mpr ⟨d, hd, by simp [he]⟩)
              have hnw : d.status ≠ "warning" := fun he =>
                h2 (List.any_eq_true.mpr ⟨d, hd, by simp [he]⟩)
              rcases hWF d hd with h3 | h3 | h3
              · exact h3
              · exact absurd h3 hnw
              · exact absurd h3 hnf
        · intro hall
          unfold recomputeStatus
          have h1 : (ds.any fun d => d.status == "fail") = false := by
            rw [Bool.eq_false_iff]
            intro hany
            rcases List.any_eq_true.mp hany with ⟨d, hd, hdf⟩
            have := hall d hd
            rw [this] at hdf
            cases hdf
          have h2 : (ds.any fun d => d.status == "warning") = false := by
            rw [Bool.eq_false_iff]
            intro hany
            rcases List.any_eq_true.mp hany with ⟨d, hd, hdf⟩
            have := hall d hd
            rw [this] at hdf
            cases hdf
          rw [if_neg (by simp [h1]), if_neg (by simp [h2])]

/-- A concrete well-formed LLM reply for the C7 witness. -/
def auditDemoReply : Json :=
  Json.obj [("status", Json.str "ok"),
            ("details", Json.arr [Json.obj
              [("agent", Json.str "x"), ("status", Json.str "valid"),
               ("comment", Json.str "ok"), ("score", Json.num 1)]])]

/-- The audit report the core produces on `auditDemoReply` with no policies. -/
def auditDemoRep : AuditReport :=
  (auditCore auditDemoReply [] Json.null Json.null).getD ⟨"", "", []⟩

/-- Witness for `audit_status_iff` on a concrete reply with no policies. -/
theorem audit_status_iff_witness :
    auditCore auditDemoReply [] Json.null Json.null = some auditDemoRep ∧
    ((auditDemoRep.status = "fail" ↔ ∃ d ∈ auditDemoRep.details, d.status = "fail") ∧
     (auditDemoRep.status = "ok" ↔ ∀ d ∈ auditDemoRep.details, d.status = "valid")) := by
  have h := audit_status_iff auditDemoReply [] Json.null Json.null
    ((coerceAudit auditDemoReply).getD ⟨"", "", []⟩) auditDemoRep rfl rfl
  exact ⟨h.1, h.2⟩

/-- C7 counterexample reply: LLM global status `ok` next to one `fail`
detail (coercion keeps a global status that is already one of
ok/partial/fail verbatim). -/
def auditRaiseReply : Json :=
  Json.obj [("status", Json.str "ok"), ("summary", Json.str "s"),
            ("details", Json.arr [Json.obj
              [("agent", Json.str "x"), ("status", Json.str "fail"),
               ("comment", Json.str "bad"), ("score", Json.num (1/10))]])]

/-- C7 counterexample trace: agent `x` failed with a truthy error. -/
def auditRaiseSteps : List TraceStep :=
  [{ agent := "x", input := Json.null, output := Json.null, error := some "boom" }]

/-- C7 counterexample policies: a well-formed JSON policy object whose
`if_error` value is a list, so the membership test in `_apply_policy`
hashes an unhashable value and raises `TypeError`. -/
def auditRaisePolicies : Json :=
  Json.obj [("x", Json.obj [("if_error", Json.arr [Json.str "fail"])])]

/-- The report the core returns on the raising input. -/
def auditRaiseRep : AuditReport :=
  (auditCore auditRaiseReply auditRaiseSteps auditRaisePolicies Json.null).getD ⟨"", "", []⟩

/-- C7 counterexample: on the raising policy the fail-soft keeps the verbatim
LLM `ok` global status next to a `fail` detail, falsifying both directions
of the claimed equivalence. -/
theorem audit_status_not_iff :
    auditCore auditRaiseReply auditRaiseSteps auditRaisePolicies Json.null
      = some auditRaiseRep ∧
    auditRaiseRep.status = "ok" ∧
    (∃ d ∈ auditRaiseRep.details, d.status = "fail") ∧
    ¬((auditRaiseRep.status = "fail") ↔ ∃ d ∈ auditRaiseRep.details, d.status = "fail") ∧
    ¬((auditRaiseRep.status = "ok") ↔ ∀ d ∈ auditRaiseRep.details, d.status = "valid") := by
  refine ⟨rfl, rfl, ⟨_, List.mem_cons_self _ _, rfl⟩, ?_, ?_⟩
  · intro hiff
    have := hiff.mpr ⟨_, List.mem_cons_self _ _, rfl⟩
    exact absurd this (by decide)
  · intro hiff
    have h2 := (hiff.mp rfl) _ (List.mem_cons_self _ _)
    exact absurd h2 (by decide)

/-! ## C1 / C2 / C8: executor trace and payload properties -/

/-- The processed form of one plan line: `none` for blank and comment lines,
otherwise the stripped, arrow-normalised step line. -/
def procLine (raw : List Char) : Option String :=
  if (stripChars raw).isEmpty || (stripChars raw).head? = some '#' then none
  else some (String.mk (replaceArrow (stripChars raw)))

/-- All processed lines of a plan, in plan order. -/
def processedLines (plan : String) : List String :=
  (splitLines plan.data).filterMap procLine

theorem execStep_halted {reg : Registry} {oracle : Oracle} {st : ExecState}
    (h : st.halted = true) (raw : List Char) : execStep reg oracle st raw = st := by
  unfold execStep
  rw [h]
  rfl

theorem foldl_execStep_halted {reg : Registry} {oracle : Oracle} :
    ∀ (lines : List (List Char)) (st : ExecState), st.halted = true →
      lines.foldl (execStep reg oracle) st = st := by
  intro lines
  induction lines with
  | nil => intro st _; rfl
  | cons raw rest ih =>
    intro st h
    rw [List.foldl_cons, execStep_halted h, ih st h]

theorem execStep_spec (reg : Registry) (oracle : Oracle) (st : ExecState) (raw : List Char)
    (hh : st.halted = false) :
    (execStep reg oracle st raw = st ∧ procLine raw = none) ∨
    (∃ e : ExecEntry, procLine raw = some e.stepVal ∧
      (execStep reg oracle st raw).results = st.results ++ [e] ∧
      (execStep reg oracle st raw).halted = e.isFailed) := by
  unfold execStep procLine
  rw [hh]
  simp only [Bool.false_eq_true, if_false]
  by_cases hb : ((stripChars raw).isEmpty || (stripChars raw).head? = some '#') = true
  · rw [if_pos hb, if_pos hb]
    exact Or.inl ⟨rfl, rfl⟩
  · rw [if_neg hb, if_neg hb]
    split
    · exact Or.inr ⟨ExecEntry.badFormat (String.mk (replaceArrow (stripChars raw))),
        rfl, rfl, rfl⟩
    · rename_i agentName capability _
      split
      · exact Or.inr ⟨ExecEntry.notRegistered (String.mk (replaceArrow (stripChars raw)))
          agentName, rfl, rfl, rfl⟩
      · rename_i agent _
        split
        · exact Or.inr ⟨ExecEntry.skippedCap (String.mk (replaceArrow (stripChars raw)))
            agentName capability, rfl, rfl, rfl⟩
        · split
          · rename_i e _
            exact Or.inr ⟨ExecEntry.failedStep (String.mk (replaceArrow (stripChars raw)))
              agentName capability (stepPayloadInput st agent capability) e, rfl, rfl, rfl⟩
          · rename_i out _
            exact Or.inr ⟨ExecEntry.okStep (String.mk (replaceArrow (stripChars raw)))
              agentName capability
              (match stepPayloadInput st agent capability with
               | Json.null => Json.obj []
               | x => x) out, rfl, rfl, rfl⟩

theorem foldl_execStep_prefix (reg : Registry) (oracle : Oracle) :
    ∀ (lines : List (List Char)) (st : ExecState),
      ∃ Δ : List ExecEntry,
        (lines.foldl (execStep reg oracle) st).results = st.results ++ Δ ∧
        Δ.map ExecEntry.stepVal <+: lines.filterMap procLine := by
  intro lines
  induction lines with
  | nil => intro st; exact ⟨[], by simp, by simp⟩
  | cons raw rest ih =>
    intro st
    rcases hst : st.halted with _ | _
    · rcases execStep_spec reg oracle st raw hst with ⟨heq, hpl⟩ | ⟨e, hpl, hres, hhal⟩
      · rcases ih st with ⟨Δ, h1, h2⟩
        refine ⟨Δ, by rw [List.foldl_cons, heq]; exact h1, ?_⟩
        simp only [List.filterMap_cons, hpl]
        exact h2
      · rcases hse : (execStep reg oracle st raw).halted with _ | _
        · rcases ih (execStep reg oracle st raw) with ⟨Δ, h1, h2⟩
          refine ⟨e :: Δ, ?_, ?_⟩
          · rw [List.foldl_cons, h1, hres]
            simp
          · simp only [List.filterMap_cons, hpl, List.map_cons]
            exact (List.prefix_cons_inj _).mpr h2
        · refine ⟨[e], ?_, ?_⟩
          · rw [List.foldl_cons, foldl_execStep_halted rest _ hse, hres]
          · simp only [List.filterMap_cons, hpl, List.map_cons, List.map_nil]
            exact ⟨_, rfl⟩
    · refine ⟨[], ?_, List.nil_prefix⟩
      rw [foldl_execStep_halted _ _ hst]
      simp

/-- Invariant: only the very last trace entry can record a dispatch failure,
and when the loop has not halted no entry records one. -/
def goodTrace (st : ExecState) : Prop :=
  (∀ e ∈ st.results.dropLast, e.isFailed = false) ∧
  (st.halted = false → ∀ e ∈ st.results, e.isFailed = false)

theorem execStep_good {reg : Registry} {oracle : Oracle} {st : ExecState}
    (hg : goodTrace st) (raw : List Char) : goodTrace (execStep reg oracle st raw) := by
  rcases hst : st.halted with _ | _
  · rcases execStep_spec reg oracle st raw hst with ⟨heq, _⟩ | ⟨e, _, hres, hhal⟩
    · rw [heq]
      exact hg
    · constructor
      · rw [hres, List.dropLast_concat]
        exact hg.2 hst
      · intro hh e2 he2
        rw [hres] at he2
        rcases List.mem_append.mp he2 with h1 | h1
        · exact hg.2 hst e2 h1
        · rw [List.mem_singleton.mp h1]
          rw [hhal] at hh
          exact hh
  · rw [execStep_halted hst]
    exact hg

theorem foldl_execStep_good {reg : Registry} {oracle : Oracle} :
    ∀ (lines : List (List Char)) (st : ExecState), goodTrace st →
      goodTrace (lines.foldl (execStep reg oracle) st) := by
  intro lines
  induction lines with
  | nil => intro st hg; exact hg
  | cons raw rest ih =>
    intro st hg
    rw [List.foldl_cons]
    exact ih _ (execStep_good hg raw)

/-- C1 (amended): the executor trace has at most one entry per plan line; the
processed step lines of the trace form a prefix of the processed plan lines
(so entries appear in plan order); and only the final entry can be a dispatch
failure (`except` branch).  Entries recording `error: "Unrecognized format"`
or an unregistered agent do not halt execution. -/
theorem executor_trace_shape (reg : Registry) (oracle : Oracle) (plan : String) :
    ((execPlanString reg oracle plan).trace.map ExecEntry.stepVal <+: processedLines plan) ∧
    ((execPlanString reg oracle plan).trace.length ≤ (splitLines plan.data).length) ∧
    (∀ e ∈ (execPlanString reg oracle plan).trace.dropLast, e.isFailed = false) := by
  have hpre := foldl_execStep_prefix reg oracle (splitLines plan.data)
    { results := [], requests := [], context := Json.null, business := Json.null,
      halted := false }
  rcases hpre with ⟨Δ, h1, h2⟩
  have htr : (execPlanString reg oracle plan).trace = Δ := by
    unfold execPlanString
    simp only
    rw [h1]
    simp
  refine ⟨?_, ?_, ?_⟩
  · rw [htr]
    exact h2
  · rw [htr]
    calc Δ.length = (Δ.map ExecEntry.stepVal).length := by simp
    _ ≤ (processedLines plan).length := List.IsPrefix.length_le h2
    _ ≤ (splitLines plan.data).length := List.length_filterMap_le _ _
  · have hg := @foldl_execStep_good reg oracle (splitLines plan.data)
      { results := [], requests := [], context := Json.null, business := Json.null,
        halted := false } ⟨by simp, by simp⟩
    intro e he
    have : (execPlanString reg oracle plan).trace =
        ((splitLines plan.data).foldl (execStep reg oracle)
          { results := [], requests := [], context := Json.null, business := Json.null,
            halted := false }).results := by
      unfold execPlanString
      simp only
    rw [this] at he
    exact hg.1 e he

/-- Manifest of demo agent `a` (capability `do`). -/
def manifestDoDemo : Manifest :=
  { capabilities := some [ManifestCap.objCap (some "do") none none]
    input_spec := none
    output_spec := none }

/-- Manifest of demo agent `b` (capability `do2`). -/
def manifestDo2Demo : Manifest :=
  { capabilities := some [ManifestCap.objCap (some "do2") none none]
    input_spec := none
    output_spec := none }

/-- Two-agent demo registry for the executor runs. -/
def execDemoReg : Registry :=
  [("a", { base_url := "http://a", manifest := manifestDoDemo }),
   ("b", { base_url := "http://b", manifest := manifestDo2Demo })]

/-- Demo agents: `a` answers with the JSON string `"hello"`, everything else
with `{"ok": true}`. -/
def execDemoOracle : Oracle := fun url _ =>
  if url = "http://a/execute" then Except.ok (Json.str "hello")
  else Except.ok (Json.obj [("ok", Json.bool true)])

/-- C1 counterexample: on the plan `garbage` / `1. a → do`, the malformed
first line produces a trace entry with `error = "Unrecognized format"`, and a
second entry follows it — an entry with non-null error is not last, so the
claim "on any error ≠ null no subsequent entry exists" is false on the code. -/
theorem executor_error_entry_not_last :
    ((execPlanString execDemoReg execDemoOracle "garbage\n1. a → do").trace.map
        ExecEntry.errorVal)
      = [some "Unrecognized format", none] := by
  decide

/-- Witness for `executor_trace_shape` on the same concrete run. -/
theorem executor_trace_shape_witness :
    ((execPlanString execDemoReg execDemoOracle "garbage\n1. a → do").trace.map
        ExecEntry.stepVal <+: processedLines "garbage\n1. a → do") ∧
    ((execPlanString execDemoReg execDemoOracle "garbage\n1. a → do").trace.length ≤
      (splitLines ("garbage\n1. a → do").data).length) ∧
    (∀ e ∈ (execPlanString execDemoReg execDemoOracle "garbage\n1. a → do").trace.dropLast,
      e.isFailed = false) :=
  executor_trace_shape execDemoReg execDemoOracle "garbage\n1. a → do"

/-- C2: on the single-step plan `1. a → do`, the only HTTP request the
Executor issues is `POST http://a/execute` with body
`{"capability": "do", "input": null}` — the payload carries no
`_agent_base_url` key and its `input` carries none either — and the recorded
step output is exactly the agent reply, un-annotated. -/
theorem executor_no_base_url_annotation :
    (execPlanString execDemoReg execDemoOracle "1. a → do").requests
      = [("http://a/execute",
          Json.obj [("capability", Json.str "do"), ("input", Json.null)])] ∧
    jsonGet (Json.obj [("capability", Json.str "do"), ("input", Json.null)])
        "_agent_base_url" = none ∧
    ((execPlanString execDemoReg execDemoOracle "1. a → do").trace.map
        ExecEntry.outputVal) = [some (Json.str "hello")] ∧
    jsonGet (Json.str "hello") "_agent_base_url" = none :=
  ⟨rfl, rfl, rfl, rfl⟩

/-- C8 (amended): for a dispatched step without a meta input handler, the
payload input POSTed to the agent is the rolling context with only one
transformation — objects lose the key `waterdrops_used`; any other context,
including null, is passed through unchanged (no `{"_value": ctx}` wrapping,
and a null context is sent as null, not `{}`). -/
theorem executor_dispatch_input (reg : Registry) (oracle : Oracle) (st : ExecState)
    (raw : List Char) (agentName capability : String) (agent : AgentRec)
    (hh : st.halted = false)
    (hb : ((stripChars raw).isEmpty || (stripChars raw).head? = some '#') = false)
    (hm : matchExecLine (replaceArrow (stripChars raw)) = some (agentName, capability))
    (hl : List.lookup agentName reg = some agent)
    (hcap : capability ∈ capabilitiesFor reg agentName)
    (hmeta : capIsMeta agent capability = false) :
    (execStep reg oracle st raw).requests
      = st.requests ++ [(agent.base_url ++ "/execute",
          Json.obj [("capability", Json.str capability), ("input", cleanInput st.context)])] ∧
    cleanInput st.context = (match st.context with
      | Json.obj kvs => Json.obj (kvs.filter (fun kv => kv.1 != "waterdrops_used"))
      | x => x) := by
  constructor
  · unfold execStep
    rw [hh]
    simp only [Bool.false_eq_true, if_false, hb, hm, hl]
    rw [if_neg (by simp [hcap])]
    have hsp : stepPayload st agent capability
        = Json.obj [("capability", Json.str capability), ("input", cleanInput st.context)] := by
      unfold stepPayload stepPayloadInput
      rw [hmeta]
      rfl
    rcases ho : oracle (agent.base_url ++ "/execute") (stepPayload st agent capability)
      with e | out <;> simp only [hsp]
  · rfl

/-- Witness for `executor_dispatch_input` on a fresh state and `1. a → do`. -/
theorem executor_dispatch_input_witness :
    (execStep execDemoReg execDemoOracle
        { results := [], requests := [], context := Json.null, business := Json.null,
          halted := false } ("1. a → do").data).requests
      = [] ++ [("http://a" ++ "/execute",
          Json.obj [("capability", Json.str "do"), ("input", cleanInput Json.null)])] ∧
    cleanInput Json.null = (match Json.null with
      | Json.obj kvs => Json.obj (kvs.filter (fun kv => kv.1 != "waterdrops_used"))
      | x => x) :=
  executor_dispatch_input execDemoReg execDemoOracle
    { results := [], requests := [], context := Json.null, business := Json.null,
      halted := false } ("1. a → do").data "a" "do"
    { base_url := "http://a", manifest := manifestDoDemo }
    rfl (by decide) (by decide) rfl (by decide) rfl

/-- C8 counterexample: in a concrete two-step run the first payload input is
null (the claim requires `{}`), and the second — a non-object context — is
passed through as the raw string (the claim requires `{"_value": ctx}`). -/
theorem executor_input_not_wrapped :
    (execPlanString execDemoReg execDemoOracle "1. a → do\n2. b → do2").requests
      = [("http://a/execute",
          Json.obj [("capability", Json.str "do"), ("input", Json.null)]),
         ("http://b/execute",
          Json.obj [("capability", Json.str "do2"), ("input", Json.str "hello")])] ∧
    Json.null ≠ Json.obj [] ∧
    Json.str "hello" ≠ Json.obj [("_value", Json.str "hello")] :=
  ⟨rfl, fun h => Json.noConfusion h, fun h => Json.noConfusion h⟩

/-! ## C5: the Executor recogniser against the Planner recogniser -/

theorem takeWhile_all_not {p : Char → Bool} (l1 : List Char) (y : Char) (l2 : List Char)
    (h1 : ∀ x ∈ l1, p x = true) (h2 : p y = false) :
    List.takeWhile p (l1 ++ y :: l2) = l1 := by
  induction l1 with
  | nil => simp [List.takeWhile_cons, h2]
  | cons x t ih =>
    have hx : p x = true := h1 x (List.mem_cons_self _ _)
    simp only [List.cons_append, List.takeWhile_cons, hx, if_true]
    rw [ih (fun z hz => h1 z (List.mem_cons_of_mem _ hz))]

theorem dropWhile_all_not {p : Char → Bool} (l1 : List Char) (y : Char) (l2 : List Char)
    (h1 : ∀ x ∈ l1, p x = true) (h2 : p y = false) :
    List.dropWhile p (l1 ++ y :: l2) = y :: l2 := by
  induction l1 with
  | nil => simp [List.dropWhile_cons, h2]
  | cons x t ih =>
    have hx : p x = true := h1 x (List.mem_cons_self _ _)
    simp only [List.cons_append, List.dropWhile_cons, hx, if_true]
    exact ih (fun z hz => h1 z (List.mem_cons_of_mem _ hz))

theorem takeWhile_all {p : Char → Bool} (l : List Char) (h : ∀ x ∈ l, p x = true) :
    List.takeWhile p l = l := by
  induction l with
  | nil => rfl
  | cons x t ih =>
    have hx : p x = true := h x (List.mem_cons_self _ _)
    simp only [List.takeWhile_cons, hx, if_true]
    rw [ih (fun z hz => h z (List.mem_cons_of_mem _ hz))]

theorem dropWhile_all {p : Char → Bool} (l : List Char) (h : ∀ x ∈ l, p x = true) :
    List.dropWhile p l = [] := by
  induction l with
  | nil => rfl
  | cons x t ih =>
    have hx : p x = true := h x (List.mem_cons_self _ _)
    simp only [List.dropWhile_cons, hx, if_true]
    exact ih (fun z hz => h z (List.mem_cons_of_mem _ hz))


theorem space_cases {ch : Char} (h : isSpaceChar ch = true) :
    ch = ' ' ∨ ch = '\t' ∨ ch = '\n' ∨ ch = '\x0d' ∨ ch = '\x0b' ∨ ch = '\x0c' := by
  unfold isSpaceChar at h
  simp only [Bool.or_eq_true, decide_eq_true_eq] at h
  tauto

theorem pname_not_space {ch : Char} (h : isPNameChar ch = true) : isSpaceChar ch = false := by
  rcases hs : isSpaceChar ch with _ | _
  · rfl
  · rcases space_cases hs with h1 | h1 | h1 | h1 | h1 | h1 <;> subst h1 <;>
      exact absurd h (by decide)

theorem ename_pname {ch : Char} (h : isENameChar ch = true) : isPNameChar ch = true := by
  unfold isENameChar at h
  unfold isPNameChar
  simp only [Bool.or_eq_true] at h ⊢
  tauto

theorem ename_not_space {ch : Char} (h : isENameChar ch = true) : isSpaceChar ch = false :=
  pname_not_space (ename_pname h)

theorem digit_not_space {ch : Char} (h : ch.isDigit = true) : isSpaceChar ch = false :=
  pname_not_space (by unfold isPNameChar; simp [h])

/-- `matchPlanTail` on a structured tail `spaces ++ name`. -/
theorem matchPlanTail_shape (g1 w3 C : List Char)
    (hw3 : ∀ x ∈ w3, isSpaceChar x = true)
    (hC : C ≠ []) (hCp : ∀ x ∈ C, isPNameChar x = true) :
    matchPlanTail g1 (w3 ++ C) = some (String.mk g1, String.mk C) := by
  rcases C with _ | ⟨ch, Ct⟩
  · exact absurd rfl hC
  have hch : isPNameChar ch = true := hCp ch (List.mem_cons_self _ _)
  have hdw : (w3 ++ ch :: Ct).dropWhile isSpaceChar = ch :: Ct :=
    dropWhile_all_not w3 ch Ct hw3 (pname_not_space hch)
  unfold matchPlanTail
  rw [hdw, takeWhile_all _ hCp, dropWhile_all _ hCp]
  simp [hC, List.dropWhile]

/-- The Planner recogniser accepts the canonical decomposition
`digits ++ "." ++ spaces ++ agent ++ spaces ++ arrow ++ spaces ++ capability`
for either arrow form, extracting the agent and capability. -/
theorem matchPlanLine_shape (d w1 A w2 arr w3 C : List Char)
    (hd : d ≠ []) (hdd : ∀ x ∈ d, x.isDigit = true)
    (hw1 : ∀ x ∈ w1, isSpaceChar x = true)
    (hA : A ≠ []) (hAp : ∀ x ∈ A, isPNameChar x = true)
    (hw2 : ∀ x ∈ w2, isSpaceChar x = true)
    (harr : arr = ['→'] ∨ arr = ['-', '>'])
    (hw3 : ∀ x ∈ w3, isSpaceChar x = true)
    (hC : C ≠ []) (hCp : ∀ x ∈ C, isPNameChar x = true) :
    matchPlanLine (d ++ '.' :: (w1 ++ (A ++ (w2 ++ arr ++ (w3 ++ C)))))
      = some (String.mk A, String.mk C) := by
  rcases d with _ | ⟨dh, dt⟩
  · exact absurd rfl hd
  have hdh : dh.isDigit = true := hdd dh (List.mem_cons_self _ _)
  have hds : (dh :: dt ++ '.' :: (w1 ++ (A ++ (w2 ++ arr ++ (w3 ++ C))))).dropWhile isSpaceChar
      = dh :: dt ++ '.' :: (w1 ++ (A ++ (w2 ++ arr ++ (w3 ++ C)))) := by
    have := dropWhile_all_not (p := isSpaceChar) [] dh
      (dt ++ '.' :: (w1 ++ (A ++ (w2 ++ arr ++ (w3 ++ C)))))
      (by intro x hx; cases hx) (digit_not_space hdh)
    simpa using this
  have htk : (dh :: dt ++ '.' :: (w1 ++ (A ++ (w2 ++ arr ++ (w3 ++ C))))).takeWhile
      Char.isDigit = dh :: dt :=
    takeWhile_all_not (dh :: dt) '.' _ hdd (by decide)
  have hdr : (dh :: dt ++ '.' :: (w1 ++ (A ++ (w2 ++ arr ++ (w3 ++ C))))).dropWhile
      Char.isDigit = '.' :: (w1 ++ (A ++ (w2 ++ arr ++ (w3 ++ C)))) :=
    dropWhile_all_not (dh :: dt) '.' _ hdd (by decide)
  rcases A with _ | ⟨ah, At⟩
  · exact absurd rfl hA
  have hah : isPNameChar ah = true := hAp ah (List.mem_cons_self _ _)
  have hr1 : (w1 ++ (ah :: At ++ (w2 ++ arr ++ (w3 ++ C)))).dropWhile isSpaceChar
      = ah :: At ++ (w2 ++ arr ++ (w3 ++ C)) := by
    have := dropWhile_all_not (p := isSpaceChar) w1 ah (At ++ (w2 ++ arr ++ (w3 ++ C)))
      hw1 (pname_not_space hah)
    simpa using this
  unfold matchPlanLine
  rw [hds, htk, hdr]
  simp only [List.cons_append, List.isEmpty_cons, Bool.false_eq_true, if_false, if_true]
  simp only [List.cons_append] at hr1
  rw [hr1]
  -- now split on whether the greedy name run swallows the '-' of an ASCII arrow
  rcases harr with harr | harr <;> subst harr
  · -- Unicode arrow: the run stops at the arrow or at the spaces before it
    have htkA : (ah :: At ++ (w2 ++ ['→'] ++ (w3 ++ C))).takeWhile isPNameChar
        = ah :: At := by
      rcases w2 with _ | ⟨sh, st⟩
      · simpa using takeWhile_all_not (ah :: At) '→' (w3 ++ C) hAp (by decide)
      · have hsh : isSpaceChar sh = true := hw2 sh (List.mem_cons_self _ _)
        have : isPNameChar sh = false := by
          rcases space_cases hsh with h1 | h1 | h1 | h1 | h1 | h1 <;> subst h1 <;> decide
        simpa using takeWhile_all_not (ah :: At) sh (st ++ ['→'] ++ (w3 ++ C)) hAp this
    have hdrA : (ah :: At ++ (w2 ++ ['→'] ++ (w3 ++ C))).dropWhile isPNameChar
        = w2 ++ ['→'] ++ (w3 ++ C) := by
      rcases w2 with _ | ⟨sh, st⟩
      · simpa using dropWhile_all_not (ah :: At) '→' (w3 ++ C) hAp (by decide)
      · have hsh : isSpaceChar sh = true := hw2 sh (List.mem_cons_self _ _)
        have : isPNameChar sh = false := by
          rcases space_cases hsh with h1 | h1 | h1 | h1 | h1 | h1 <;> subst h1 <;> decide
        simpa using dropWhile_all_not (ah :: At) sh (st ++ ['→'] ++ (w3 ++ C)) hAp this
    simp only [List.cons_append, List.nil_append] at htkA hdrA ⊢
    rw [htkA, hdrA]
    simp only [List.isEmpty_cons, Bool.false_eq_true, if_false]
    unfold matchPlanArrow
    have : (w2 ++ ['→'] ++ (w3 ++ C)).dropWhile isSpaceChar = '→' :: (w3 ++ C) := by
      have := dropWhile_all_not (p := isSpaceChar) w2 '→' (w3 ++ C) hw2 (by decide)
      simpa using this
    rw [this]
    exact matchPlanTail_shape _ _ _ hw3 hC hCp
  · -- ASCII arrow
    rcases w2 with _ | ⟨sh, st⟩
    · -- no space before the arrow: the run swallows the '-', one-step backtrack
      have htkA : (ah :: At ++ ([] ++ ['-', '>'] ++ (w3 ++ C))).takeWhile isPNameChar
          = (ah :: At) ++ ['-'] := by
        have : ah :: At ++ ([] ++ ['-', '>'] ++ (w3 ++ C))
            = ((ah :: At) ++ ['-']) ++ '>' :: (w3 ++ C) := by simp
        rw [this]
        refine takeWhile_all_not ((ah :: At) ++ ['-']) '>' (w3 ++ C) ?_ (by decide)
        intro x hx
        rcases List.mem_append.mp hx with h1 | h1
        · exact hAp x h1
        · rw [List.mem_singleton.mp h1]; decide
      have hdrA : (ah :: At ++ ([] ++ ['-', '>'] ++ (w3 ++ C))).dropWhile isPNameChar
          = '>' :: (w3 ++ C) := by
        have : ah :: At ++ ([] ++ ['-', '>'] ++ (w3 ++ C))
            = ((ah :: At) ++ ['-']) ++ '>' :: (w3 ++ C) := by simp
        rw [this]
        refine dropWhile_all_not ((ah :: At) ++ ['-']) '>' (w3 ++ C) ?_ (by decide)
        intro x hx
        rcases List.mem_append.mp hx with h1 | h1
        · exact hAp x h1
        · rw [List.mem_singleton.mp h1]; decide
      simp only [List.cons_append, List.nil_append] at htkA hdrA ⊢
      rw [htkA, hdrA]
      simp only [List.isEmpty_cons, Bool.false_eq_true, if_false]
      have hgl : (ah :: (At ++ ['-'])).getLast? = some '-' := by
        rw [show ah :: (At ++ ['-']) = (ah :: At) ++ ['-'] from rfl, List.getLast?_concat]
      have hdl : (ah :: (At ++ ['-'])).dropLast = ah :: At := by
        rw [show ah :: (At ++ ['-']) = (ah :: At) ++ ['-'] from rfl, List.dropLast_concat]
      have hred : matchPlanArrow (ah :: (At ++ ['-'])) ('>' :: (w3 ++ C))
          = if (ah :: (At ++ ['-'])).getLast? = some '-'
                && !(ah :: (At ++ ['-'])).dropLast.isEmpty then
              matchPlanTail (ah :: (At ++ ['-'])).dropLast (w3 ++ C)
            else none := rfl
      rw [hred, if_pos (by simp [hgl, hdl]), hdl]
      exact matchPlanTail_shape _ _ _ hw3 hC hCp
    · -- a space separates the run from the ASCII arrow
      have hsh : isSpaceChar sh = true := hw2 sh (List.mem_cons_self _ _)
      have hshp : isPNameChar sh = false := by
        rcases space_cases hsh with h1 | h1 | h1 | h1 | h1 | h1 <;> subst h1 <;> decide
      have htkA : (ah :: At ++ ((sh :: st) ++ ['-', '>'] ++ (w3 ++ C))).takeWhile isPNameChar
          = ah :: At := by
        simpa using takeWhile_all_not (ah :: At) sh (st ++ ['-', '>'] ++ (w3 ++ C)) hAp hshp
      have hdrA : (ah :: At ++ ((sh :: st) ++ ['-', '>'] ++ (w3 ++ C))).dropWhile isPNameChar
          = (sh :: st) ++ ['-', '>'] ++ (w3 ++ C) := by
        simpa using dropWhile_all_not (ah :: At) sh (st ++ ['-', '>'] ++ (w3 ++ C)) hAp hshp
      simp only [List.cons_append, List.nil_append] at htkA hdrA ⊢
      rw [htkA, hdrA]
      simp only [List.isEmpty_cons, Bool.false_eq_true, if_false]
      unfold matchPlanArrow
      have : ((sh :: st) ++ ['-', '>'] ++ (w3 ++ C)).dropWhile isSpaceChar
          = '-' :: '>' :: (w3 ++ C) := by
        have := dropWhile_all_not (p := isSpaceChar) (sh :: st) '-' ('>' :: (w3 ++ C))
          hw2 (by decide)
        simpa using this
      simp only [List.cons_append] at this
      rw [this]
      exact matchPlanTail_shape _ _ _ hw3 hC hCp

theorem mem_takeWhile_sat {α} (p : α → Bool) : ∀ (l : List α) (x : α),
    x ∈ l.takeWhile p → p x = true := by
  intro l
  induction l with
  | nil => intro x hx; cases hx
  | cons a t ih =>
    intro x hx
    rw [List.takeWhile_cons] at hx
    by_cases hp : p a = true
    · rw [if_pos hp] at hx
      rcases List.mem_cons.mp hx with h | h
      · subst h; exact hp
      · exact ih x h
    · rw [if_neg hp] at hx; cases hx

theorem digit_not_special {ch : Char} (h : ch.isDigit = true) : ch ≠ '-' ∧ ch ≠ '→' := by
  constructor <;> intro e <;> subst e <;> exact absurd h (by decide)

theorem space_not_special {ch : Char} (h : isSpaceChar ch = true) : ch ≠ '-' ∧ ch ≠ '→' := by
  constructor <;> intro e <;> subst e <;> exact absurd h (by decide)

theorem ename_not_special {ch : Char} (h : isENameChar ch = true) : ch ≠ '-' ∧ ch ≠ '→' := by
  constructor <;> intro e <;> subst e <;> exact absurd h (by decide)

/-- Inversion of the Executor recogniser: an accepted line decomposes as
`digits ++ "." ++ spaces ++ agent ++ spaces ++ "→" ++ spaces ++ capability`. -/
theorem matchExecLine_inv (t : List Char) (a c : String)
    (h : matchExecLine t = some (a, c)) :
    ∃ d w1 A w2 w3 C, t = d ++ '.' :: (w1 ++ (A ++ (w2 ++ ['→'] ++ (w3 ++ C)))) ∧
      d ≠ [] ∧ (∀ x ∈ d, x.isDigit = true) ∧ (∀ x ∈ w1, isSpaceChar x = true) ∧
      A ≠ [] ∧ (∀ x ∈ A, isENameChar x = true) ∧ (∀ x ∈ w2, isSpaceChar x = true) ∧
      (∀ x ∈ w3, isSpaceChar x = true) ∧ C ≠ [] ∧ (∀ x ∈ C, isENameChar x = true) ∧
      a = String.mk A ∧ c = String.mk C := by
  unfold matchExecLine at h
  split at h
  · exact Option.noConfusion h
  rename_i h1
  split at h
  · exact Option.noConfusion h
  rename_i c0 r1 hd0
  split at h
  swap
  · exact Option.noConfusion h
  rename_i hc0
  subst hc0
  split at h
  · exact Option.noConfusion h
  rename_i h2
  split at h
  · exact Option.noConfusion h
  rename_i c1 r3 hd2
  split at h
  swap
  · exact Option.noConfusion h
  rename_i hc1
  subst hc1
  split at h
  · exact Option.noConfusion h
  rename_i h3
  split at h
  swap
  · exact Option.noConfusion h
  rename_i h4
  refine ⟨t.takeWhile Char.isDigit, r1.takeWhile isSpaceChar,
    (r1.dropWhile isSpaceChar).takeWhile isENameChar,
    ((r1.dropWhile isSpaceChar).dropWhile isENameChar).takeWhile isSpaceChar,
    r3.takeWhile isSpaceChar,
    (r3.dropWhile isSpaceChar).takeWhile isENameChar,
    ?_, ?_, ?_, ?_, ?_, ?_, ?_, ?_, ?_, ?_, ?_, ?_⟩
  · have e1 : r3.dropWhile isSpaceChar
        = (r3.dropWhile isSpaceChar).takeWhile isENameChar := by
      conv_lhs => rw [← List.takeWhile_append_dropWhile (p := isENameChar)
        (l := r3.dropWhile isSpaceChar)]
      rw [h4, List.append_nil]
    have e2 : r3 = r3.takeWhile isSpaceChar
        ++ (r3.dropWhile isSpaceChar).takeWhile isENameChar := by
      conv_lhs => rw [← List.takeWhile_append_dropWhile (p := isSpaceChar) (l := r3)]
      rw [← e1]
    have e3 : (r1.dropWhile isSpaceChar).dropWhile isENameChar
        = ((r1.dropWhile isSpaceChar).dropWhile isENameChar).takeWhile isSpaceChar
          ++ '→' :: r3 := by
      conv_lhs => rw [← List.takeWhile_append_dropWhile (p := isSpaceChar)
        (l := (r1.dropWhile isSpaceChar).dropWhile isENameChar)]
      rw [hd2]
    have e4 : r1.dropWhile isSpaceChar
        = (r1.dropWhile isSpaceChar).takeWhile isENameChar
          ++ (r1.dropWhile isSpaceChar).dropWhile isENameChar :=
      (List.takeWhile_append_dropWhile _ _).symm
    have e5 : r1 = r1.takeWhile isSpaceChar ++ r1.dropWhile isSpaceChar :=
      (List.takeWhile_append_dropWhile _ _).symm
    conv_lhs => rw [← List.takeWhile_append_dropWhile (p := Char.isDigit) (l := t), hd0,
      e5, e4, e3, e2]
    simp [List.append_assoc]
  · intro he; exact h1 (by simp [he])
  · exact fun x hx => mem_takeWhile_sat _ _ x hx
  · exact fun x hx => mem_takeWhile_sat _ _ x hx
  · intro he; exact h2 (by simp [he])
  · exact fun x hx => mem_takeWhile_sat _ _ x hx
  · exact fun x hx => mem_takeWhile_sat _ _ x hx
  · exact fun x hx => mem_takeWhile_sat _ _ x hx
  · intro he; exact h3 (by simp [he])
  · exact fun x hx => mem_takeWhile_sat _ _ x hx
  · exact (congrArg Prod.fst (Option.some.inj h)).symm
  · exact (congrArg Prod.snd (Option.some.inj h)).symm

/-- `replace("->", "→")` on a string whose image has no `-` and no `→` is
the identity. -/
theorem replaceArrow_plain (s : List Char) :
    ∀ Q : List Char, (∀ x ∈ Q, x ≠ '-' ∧ x ≠ '→') → replaceArrow s = Q → s = Q := by
  induction s with
  | nil => intro Q hQ h; exact h
  | cons ch t ih =>
    intro Q hQ h
    unfold replaceArrow at h
    split at h
    · rename_i hch
      split at h
      · rename_i c2 t2
        split at h
        · exact absurd rfl ((hQ '→' (h ▸ List.mem_cons_self _ _)).2)
        · exact absurd hch ((hQ ch (h ▸ List.mem_cons_self _ _)).1).elim
          -- unreachable fallback
      · exact absurd hch ((hQ ch (h ▸ List.mem_cons_self _ _)).1).elim
    · rename_i hch
      rcases Q with _ | ⟨qh, qt⟩
      · cases h
      · have h1 : ch = qh := (List.cons.inj h).1
        have h2 : replaceArrow t = qt := (List.cons.inj h).2
        have := ih qt (fun x hx => hQ x (List.mem_cons_of_mem _ hx)) h2
        rw [h1, this]

/-- A `→` in the image of `replace("->", "→")` preceded only by characters
that are neither `-` nor `→` comes from a `→` or a `->` at the same place. -/
theorem replaceArrow_split (s : List Char) :
    ∀ L Q : List Char, (∀ x ∈ L, x ≠ '-' ∧ x ≠ '→') →
    replaceArrow s = L ++ '→' :: Q →
    (∃ s2, s = L ++ '→' :: s2 ∧ replaceArrow s2 = Q) ∨
    (∃ s2, s = L ++ '-' :: '>' :: s2 ∧ replaceArrow s2 = Q) := by
  induction s with
  | nil =>
    intro L Q hL h
    exact absurd h (by simp [replaceArrow])
  | cons ch t ih =>
    intro L Q hL h
    unfold replaceArrow at h
    split at h
    · rename_i hch
      split at h
      · rename_i c2 t2
        split at h
        · rename_i hc2
          rcases L with _ | ⟨lh, lt⟩
          · right
            refine ⟨t2, ?_, (List.cons.inj h).2⟩
            rw [hch, hc2]
            rfl
          · exact absurd ((List.cons.inj h).1).symm ((hL lh (List.mem_cons_self _ _)).2)
        · rcases L with _ | ⟨lh, lt⟩
          · have h1 := (List.cons.inj h).1
            rw [hch] at h1
            exact absurd h1 (by decide)
          · have h1 := (List.cons.inj h).1
            exact absurd (h1.symm.trans hch) ((hL lh (List.mem_cons_self _ _)).1)
      · rcases L with _ | ⟨lh, lt⟩
        · have h1 := (List.cons.inj h).1
          rw [hch] at h1
          exact absurd h1 (by decide)
        · exact absurd ((List.cons.inj h).2).symm (by simp)
    · rename_i hch
      rcases L with _ | ⟨lh, lt⟩
      · left
        refine ⟨t, ?_, (List.cons.inj h).2⟩
        rw [(List.cons.inj h).1]
        rfl
      · have h1 := (List.cons.inj h).1
        have h2 := (List.cons.inj h).2
        rcases ih lt Q (fun x hx => hL x (List.mem_cons_of_mem _ hx)) h2 with
          ⟨s2, hs2, hr⟩ | ⟨s2, hs2, hr⟩
        · left; exact ⟨s2, by rw [h1, hs2]; rfl, hr⟩
        · right; exact ⟨s2, by rw [h1, hs2]; rfl, hr⟩

/-- C5 (amended): the Executor recogniser refines the Planner recogniser.
Whenever the Executor step pattern (applied after `replace("->", "→")`)
accepts a line, the Planner step pattern accepts the original line and
extracts the same (agent, capability) pair.  The converse fails: the
Planner name class also accepts `-`, so it accepts lines the Executor
rejects. -/
theorem executor_recognizer_refines_planner (l : List Char) (a c : String)
    (h : matchExecLine (replaceArrow l) = some (a, c)) :
    matchPlanLine l = some (a, c) := by
  obtain ⟨d, w1, A, w2, w3, C, ht, hdne, hdd, hw1, hA, hAe, hw2, hw3, hC, hCe, ha, hc⟩ :=
    matchExecLine_inv (replaceArrow l) a c h
  have ht2 : replaceArrow l = (d ++ '.' :: (w1 ++ A ++ w2)) ++ '→' :: (w3 ++ C) := by
    rw [ht]; simp [List.append_assoc]
  have hL : ∀ x ∈ d ++ '.' :: (w1 ++ A ++ w2), x ≠ '-' ∧ x ≠ '→' := by
    intro x hx
    rcases List.mem_append.mp hx with hx | hx
    · exact digit_not_special (hdd x hx)
    · rcases List.mem_cons.mp hx with hx | hx
      · subst hx; exact ⟨by decide, by decide⟩
      · rcases List.mem_append.mp hx with hx | hx
        · rcases List.mem_append.mp hx with hx | hx
          · exact space_not_special (hw1 x hx)
          · exact ename_not_special (hAe x hx)
        · exact space_not_special (hw2 x hx)
  have hQ : ∀ x ∈ w3 ++ C, x ≠ '-' ∧ x ≠ '→' := by
    intro x hx
    rcases List.mem_append.mp hx with hx | hx
    · exact space_not_special (hw3 x hx)
    · exact ename_not_special (hCe x hx)
  have hAp : ∀ x ∈ A, isPNameChar x = true := fun x hx => ename_pname (hAe x hx)
  have hCp : ∀ x ∈ C, isPNameChar x = true := fun x hx => ename_pname (hCe x hx)
  rw [ha, hc]
  rcases replaceArrow_split l _ _ hL ht2 with ⟨s2, hs2, hr⟩ | ⟨s2, hs2, hr⟩
  · have hs2Q : s2 = w3 ++ C := replaceArrow_plain s2 _ hQ hr
    rw [hs2Q] at hs2
    have hshape := matchPlanLine_shape d w1 A w2 ['→'] w3 C hdne hdd hw1 hA hAp hw2
      (Or.inl rfl) hw3 hC hCp
    rw [hs2]
    rw [show (d ++ '.' :: (w1 ++ A ++ w2)) ++ '→' :: (w3 ++ C)
        = d ++ '.' :: (w1 ++ (A ++ (w2 ++ ['→'] ++ (w3 ++ C)))) by
      simp [List.append_assoc]]
    exact hshape
  · have hs2Q : s2 = w3 ++ C := replaceArrow_plain s2 _ hQ hr
    rw [hs2Q] at hs2
    have hshape := matchPlanLine_shape d w1 A w2 ['-', '>'] w3 C hdne hdd hw1 hA hAp hw2
      (Or.inr rfl) hw3 hC hCp
    rw [hs2]
    rw [show (d ++ '.' :: (w1 ++ A ++ w2)) ++ '-' :: '>' :: (w3 ++ C)
        = d ++ '.' :: (w1 ++ (A ++ (w2 ++ ['-', '>'] ++ (w3 ++ C)))) by
      simp [List.append_assoc]]
    exact hshape

/-- C5 counterexample: the two recognisers are not equivalent.  On the line
`1. a-b → c` the Planner pattern (name class with `-`) extracts
`("a-b", "c")` while the Executor pattern (name class without `-`)
rejects the line. -/
theorem executor_recognizer_stricter :
    matchPlanLine ("1. a-b → c").data = some ("a-b", "c") ∧
    matchExecLine (replaceArrow ("1. a-b → c").data) = none :=
  ⟨rfl, rfl⟩

/-- Witness for `executor_recognizer_refines_planner` on `1. a -> b`. -/
theorem executor_recognizer_refines_planner_witness :
    matchExecLine (replaceArrow ("1. a -> b").data) = some ("a", "b") ∧
    matchPlanLine ("1. a -> b").data = some ("a", "b") :=
  ⟨rfl, executor_recognizer_refines_planner ("1. a -> b").data "a" "b" rfl⟩

/-! ## C6: plan text round-trip -/

theorem intercalate_go_data (as : List String) : ∀ acc : String,
    (String.intercalate.go acc "\n" as).data = acc.data ++ joinNLTail (as.map String.data) := by
  induction as with
  | nil =>
    intro acc
    show acc.data = acc.data ++ joinNLTail []
    simp [joinNLTail]
  | cons a as ih =>
    intro acc
    show (String.intercalate.go (acc ++ "\n" ++ a) "\n" as).data = _
    rw [ih]
    simp [joinNLTail, List.append_assoc]

theorem intercalate_data (ls : List String) :
    (String.intercalate "\n" ls).data = joinNL (ls.map String.data) := by
  rcases ls with _ | ⟨a, as⟩
  · rfl
  · show (String.intercalate.go a "\n" as).data = _
    rw [intercalate_go_data]
    rfl

theorem break_cases {ch : Char} (h : isLineBreakChar ch = true) :
    ch = '\n' ∨ ch = '\x0d' ∨ ch = '\x0b' ∨ ch = '\x0c' ∨ ch = '\x1c' ∨ ch = '\x1d' ∨
    ch = '\x1e' ∨ ch = '\x85' ∨ ch = ' ' ∨ ch = ' ' := by
  unfold isLineBreakChar at h
  simp only [Bool.or_eq_true, decide_eq_true_eq] at h
  tauto

theorem pname_not_break {ch : Char} (h : isPNameChar ch = true) :
    isLineBreakChar ch = false := by
  rcases hb : isLineBreakChar ch with _ | _
  · rfl
  · rcases break_cases hb with h1 | h1 | h1 | h1 | h1 | h1 | h1 | h1 | h1 | h1 <;> subst h1 <;>
      exact absurd h (by decide)

theorem digitChar_isDigit : ∀ m, m < 10 → (Nat.digitChar m).isDigit = true := by decide

theorem toDigitsCore_digits : ∀ (fuel n : ℕ) (ds : List Char),
    (∀ x ∈ ds, x.isDigit = true) →
    ∀ x ∈ Nat.toDigitsCore 10 fuel n ds, x.isDigit = true := by
  intro fuel
  induction fuel with
  | zero => intro n ds hds; exact hds
  | succ f ih =>
    intro n ds hds x hx
    have hd10 : (Nat.digitChar (n % 10)).isDigit = true :=
      digitChar_isDigit _ (Nat.mod_lt _ (by decide))
    have hx2 : x ∈ (if n / 10 = 0 then Nat.digitChar (n % 10) :: ds
        else Nat.toDigitsCore 10 f (n / 10) (Nat.digitChar (n % 10) :: ds)) := hx
    by_cases h0 : n / 10 = 0
    · rw [if_pos h0] at hx2
      rcases List.mem_cons.mp hx2 with h | h
      · subst h; exact hd10
      · exact hds x h
    · rw [if_neg h0] at hx2
      refine ih (n / 10) (Nat.digitChar (n % 10) :: ds) ?_ x hx2
      intro y hy
      rcases List.mem_cons.mp hy with h | h
      · subst h; exact hd10
      · exact hds y h

theorem toDigitsCore_ne_nil_of_acc : ∀ (fuel n : ℕ) (ds : List Char),
    ds ≠ [] → Nat.toDigitsCore 10 fuel n ds ≠ [] := by
  intro fuel
  induction fuel with
  | zero => intro n ds hds; exact hds
  | succ f ih =>
    intro n ds hds
    show (if n / 10 = 0 then Nat.digitChar (n % 10) :: ds
        else Nat.toDigitsCore 10 f (n / 10) (Nat.digitChar (n % 10) :: ds)) ≠ []
    by_cases h0 : n / 10 = 0
    · rw [if_pos h0]; exact List.cons_ne_nil _ _
    · rw [if_neg h0]; exact ih (n / 10) _ (List.cons_ne_nil _ _)

theorem repr_digits (n : ℕ) : ∀ x ∈ (Nat.repr n).data, x.isDigit = true := by
  intro x hx
  exact toDigitsCore_digits (n + 1) n [] (by intro y hy; cases hy) x hx

theorem repr_ne_nil (n : ℕ) : (Nat.repr n).data ≠ [] := by
  show (if n / 10 = 0 then [Nat.digitChar (n % 10)]
      else Nat.toDigitsCore 10 n (n / 10) [Nat.digitChar (n % 10)]) ≠ []
  by_cases h0 : n / 10 = 0
  · rw [if_pos h0]; exact List.cons_ne_nil _ _
  · rw [if_neg h0]; exact toDigitsCore_ne_nil_of_acc n (n / 10) _ (List.cons_ne_nil _ _)

theorem splitLinesGo_break (l : List Char) :
    ∀ (r acc : List Char), (∀ x ∈ l, isLineBreakChar x = false) →
    splitLinesGo (l ++ '\n' :: r) acc = (acc.reverse ++ l) :: splitLinesGo r [] := by
  induction l with
  | nil =>
    intro r acc _
    show splitLinesGo ([] ++ '\n' :: r) acc = (acc.reverse ++ []) :: splitLinesGo r []
    rw [List.nil_append]
    conv_lhs => unfold splitLinesGo
    rw [if_neg (by decide), if_pos (by decide)]
    simp
  | cons ch l ih =>
    intro r acc h
    have hch : isLineBreakChar ch = false := h ch (List.mem_cons_self _ _)
    have hch2 : ¬(ch = '\x0d') := by
      intro e; subst e; exact absurd hch (by decide)
    show splitLinesGo (ch :: (l ++ '\n' :: r)) acc = _
    conv_lhs => unfold splitLinesGo
    rw [if_neg hch2, if_neg (by simp [hch])]
    rw [ih r (ch :: acc) (fun x hx => h x (List.mem_cons_of_mem _ hx))]
    simp

theorem splitLinesGo_noBreak (l : List Char) :
    ∀ acc : List Char, (∀ x ∈ l, isLineBreakChar x = false) →
    acc.reverse ++ l ≠ [] →
    splitLinesGo l acc = [acc.reverse ++ l] := by
  induction l with
  | nil =>
    intro acc _ hne
    have hacc : ¬(acc.isEmpty = true) := by
      intro he
      apply hne
      simp only [List.isEmpty_iff] at he
      simp [he]
    have hstep : splitLinesGo [] acc = if acc.isEmpty then [] else [acc.reverse] := rfl
    rw [hstep, if_neg hacc]
    simp
  | cons ch l ih =>
    intro acc h hne
    have hch : isLineBreakChar ch = false := h ch (List.mem_cons_self _ _)
    have hch2 : ¬(ch = '\x0d') := by
      intro e; subst e; exact absurd hch (by decide)
    show splitLinesGo (ch :: l) acc = _
    conv_lhs => unfold splitLinesGo
    rw [if_neg hch2, if_neg (by simp [hch])]
    rw [ih (ch :: acc) (fun x hx => h x (List.mem_cons_of_mem _ hx)) (by simp)]
    simp

theorem splitLines_joinNL (L : List (List Char))
    (h : ∀ l ∈ L, l ≠ [] ∧ ∀ x ∈ l, isLineBreakChar x = false) :
    splitLines (joinNL L) = L := by
  induction L with
  | nil => rfl
  | cons l ls ih =>
    rcases ls with _ | ⟨l2, ls2⟩
    · obtain ⟨hne, hnb⟩ := h l (List.mem_cons_self _ _)
      show splitLinesGo (l ++ joinNLTail []) [] = [l]
      have : l ++ joinNLTail [] = l := by simp [joinNLTail]
      rw [this]
      have := splitLinesGo_noBreak l [] hnb (by simpa using hne)
      simpa using this
    · obtain ⟨hne, hnb⟩ := h l (List.mem_cons_self _ _)
      show splitLinesGo (l ++ '\n' :: (l2 ++ joinNLTail ls2)) [] = l :: l2 :: ls2
      rw [splitLinesGo_break l _ [] hnb]
      have := ih (fun q hq => h q (List.mem_cons_of_mem _ hq))
      show ([].reverse ++ l) :: splitLinesGo (joinNL (l2 :: ls2)) [] = l :: l2 :: ls2
      rw [show splitLinesGo (joinNL (l2 :: ls2)) [] = splitLines (joinNL (l2 :: ls2)) from rfl,
        this]
      simp

theorem stripChars_id (l : List Char)
    (h1 : l.dropWhile isSpaceChar = l)
    (h2 : l.reverse.dropWhile isSpaceChar = l.reverse) :
    stripChars l = l := by
  unfold stripChars
  rw [h1, h2, List.reverse_reverse]

theorem renderLine_parse (n : ℕ) (a c : String)
    (ha : a.data ≠ []) (hap : ∀ x ∈ a.data, isPNameChar x = true)
    (hc : c.data ≠ []) (hcp : ∀ x ∈ c.data, isPNameChar x = true) :
    matchPlanLine (stripChars (Nat.repr n ++ ". " ++ a ++ " → " ++ c).data)
      = some (a, c) := by
  have hD : (Nat.repr n).data ≠ [] := repr_ne_nil n
  have hDd : ∀ x ∈ (Nat.repr n).data, x.isDigit = true := repr_digits n
  have hdata : (Nat.repr n ++ ". " ++ a ++ " → " ++ c).data
      = (Nat.repr n).data
        ++ '.' :: ([' '] ++ (a.data ++ ([' '] ++ ['→'] ++ ([' '] ++ c.data)))) := by
    simp [String.data_append]
  rw [hdata]
  have h1 : ((Nat.repr n).data
        ++ '.' :: ([' '] ++ (a.data ++ ([' '] ++ ['→'] ++ ([' '] ++ c.data))))).dropWhile
        isSpaceChar
      = (Nat.repr n).data
        ++ '.' :: ([' '] ++ (a.data ++ ([' '] ++ ['→'] ++ ([' '] ++ c.data)))) := by
    rcases hDe : (Nat.repr n).data with _ | ⟨dh, dt⟩
    · exact absurd hDe hD
    · have hdh : isSpaceChar dh = false :=
        digit_not_space (hDd dh (by rw [hDe]; exact List.mem_cons_self _ _))
      simp only [List.cons_append]
      rw [List.dropWhile_cons, if_neg (by simp [hdh])]
  have hsplit : (Nat.repr n).data
        ++ '.' :: ([' '] ++ (a.data ++ ([' '] ++ ['→'] ++ ([' '] ++ c.data))))
      = ((Nat.repr n).data ++ ['.', ' '] ++ a.data ++ [' ', '→', ' ']) ++ c.data := by
    simp [List.append_assoc]
  have h2 : (((Nat.repr n).data
        ++ '.' :: ([' '] ++ (a.data ++ ([' '] ++ ['→'] ++ ([' '] ++ c.data)))))).reverse.dropWhile
        isSpaceChar
      = ((Nat.repr n).data
        ++ '.' :: ([' '] ++ (a.data ++ ([' '] ++ ['→'] ++ ([' '] ++ c.data))))).reverse := by
    rw [hsplit, List.reverse_append]
    rcases hce : c.data.reverse with _ | ⟨y, ys⟩
    · exact absurd (List.reverse_eq_nil_iff.mp hce) hc
    · have hy : isPNameChar y = true :=
        hcp y (List.mem_reverse.mp (by rw [hce]; exact List.mem_cons_self _ _))
      simp only [List.cons_append]
      rw [List.dropWhile_cons, if_neg (by simp [pname_not_space hy])]
  rw [stripChars_id _ h1 h2]
  exact matchPlanLine_shape (Nat.repr n).data [' '] a.data [' '] ['→'] [' '] c.data
    hD hDd (by decide) ha hap (by decide) (Or.inl rfl) (by decide) hc hcp

theorem renderLines_lines_wf (steps : List (String × String)) : ∀ (n : ℕ),
    (∀ p ∈ steps, p.1.data ≠ [] ∧ (∀ x ∈ p.1.data, isPNameChar x = true) ∧
      p.2.data ≠ [] ∧ (∀ x ∈ p.2.data, isPNameChar x = true)) →
    ∀ l ∈ (renderLines n steps).map String.data,
      l ≠ [] ∧ ∀ x ∈ l, isLineBreakChar x = false := by
  induction steps with
  | nil => intro n _ l hl; cases hl
  | cons p t ih =>
    rcases p with ⟨a, c⟩
    intro n h l hl
    obtain ⟨ha, hap, hc, hcp⟩ := h (a, c) (List.mem_cons_self _ _)
    have hdata : (Nat.repr n ++ ". " ++ a ++ " → " ++ c).data
        = (Nat.repr n).data
          ++ '.' :: ([' '] ++ (a.data ++ ([' '] ++ ['→'] ++ ([' '] ++ c.data)))) := by
      simp [String.data_append]
    rcases List.mem_cons.mp hl with hl | hl
    · subst hl
      constructor
      · rw [hdata]
        simp
      · intro x hx
        rw [hdata] at hx
        rcases List.mem_append.mp hx with hx | hx
        · have hdig : x.isDigit = true := repr_digits n x hx
          exact pname_not_break (by unfold isPNameChar; simp [hdig])
        · rcases List.mem_cons.mp hx with hx | hx
          · subst hx; decide
          · rcases List.mem_append.mp hx with hx | hx
            · rcases List.mem_singleton.mp hx with rfl; decide
            · rcases List.mem_append.mp hx with hx | hx
              · exact pname_not_break (hap x hx)
              · rcases List.mem_append.mp hx with hx | hx
                · rcases List.mem_append.mp hx with hx | hx
                  · rcases List.mem_singleton.mp hx with rfl; decide
                  · rcases List.mem_singleton.mp hx with rfl; decide
                · rcases List.mem_cons.mp hx with hx | hx
                  · subst hx; decide
                  · exact pname_not_break (hcp x hx)
    · exact ih (n + 1) (fun q hq => h q (List.mem_cons_of_mem _ hq)) l hl

theorem renderLines_parse (steps : List (String × String)) : ∀ (n : ℕ),
    (∀ p ∈ steps, p.1.data ≠ [] ∧ (∀ x ∈ p.1.data, isPNameChar x = true) ∧
      p.2.data ≠ [] ∧ (∀ x ∈ p.2.data, isPNameChar x = true)) →
    ((renderLines n steps).map String.data).filterMap
      (fun l => matchPlanLine (stripChars l)) = steps := by
  induction steps with
  | nil => intro n _; rfl
  | cons p t ih =>
    rcases p with ⟨a, c⟩
    intro n h
    obtain ⟨ha, hap, hc, hcp⟩ := h (a, c) (List.mem_cons_self _ _)
    simp only [renderLines, List.map_cons, List.filterMap_cons,
      renderLine_parse n a c ha hap hc hcp]
    exact congrArg (List.cons (a, c)) (ih (n + 1) (fun q hq => h q (List.mem_cons_of_mem _ hq)))

/-- C6: plan text round-trip.  For every list of (agent, capability) steps
whose names are nonempty and drawn from the plan name class
`[A-Za-z0-9_\-]`, parsing the canonical rendered plan text (numbered lines
`N. agent → capability` joined by newlines, arrows already in the
normalised `→` form) returns exactly the original steps. -/
theorem plan_text_roundtrip (steps : List (String × String))
    (h : ∀ p ∈ steps, p.1.data ≠ [] ∧ (∀ x ∈ p.1.data, isPNameChar x = true) ∧
      p.2.data ≠ [] ∧ (∀ x ∈ p.2.data, isPNameChar x = true)) :
    parseLLMPlan (renderPlan steps) = steps := by
  unfold parseLLMPlan renderPlan
  rw [intercalate_data, splitLines_joinNL _ (renderLines_lines_wf steps 1 h)]
  exact renderLines_parse steps 1 h

/-- Witness for `plan_text_roundtrip` on a two-step plan. -/
theorem plan_text_roundtrip_witness :
    parseLLMPlan (renderPlan [("a", "b"), ("x_1", "y-2")]) = [("a", "b"), ("x_1", "y-2")] :=
  plan_text_roundtrip [("a", "b"), ("x_1", "y-2")] (by decide)
